import Mathlib

/-!
# Candle toy (`src/script.js`): shallow embedding

The script keeps three mutable variables (`candles`, `blowingUnlocked`,
`lastBlowTime`) and reacts to clicks, to a 150 ms interval and to `setTimeout`
callbacks.  The embedding passes these variables around as an explicit `State`.

Modelling conventions:

* A candle is a DOM element; JavaScript compares elements by reference
  (`el !== c`).  Every element created by `addCandle` gets a fresh number `id`
  taken from the allocation counter `nextId`; `id` equality stands for reference
  equality.  The class mark `out` and the data attribute `removing` are the two
  booleans the script reads back from an element.
* `Date.now()`, the microphone reading and `Math.random()` are inputs of the
  environment: the operations take the clock value `now`, the loudness `rms`
  returned by `getMicRMS()` and the stream `draws` (`draws i` is the value of the
  `i`-th call of `Math.random()` during the event) as arguments.  Numbers are
  exact rationals: the literals `0.1` and `0.45` are read as `1/10` and `45/100`,
  and the arithmetic of `getMicRMS` is carried out without rounding, with
  `Math.sqrt` left as a parameter.
* `setTimeout(f, d)` appends a `Timer` with delay `d` to `State.timers`; a pending
  timer fires through `fire`.  Any pending timer may fire at any moment, which
  over-approximates the browser's ordering by due time.
* `showNotice` is recorded as the emitted message; `window.location.href = ...`
  as `State.href`.  Writes that the script never reads back (inline styles, the
  DOM tree under `.cake`, the counter text, the console) are left out.
-/

namespace Germano

set_option maxRecDepth 100000

/-! ## Constants (lines 5-9, 132) -/

def MAX_CANDLES : Nat := 54
def REMOVAL_DELAY : Nat := 2000
def FADE_DURATION : Nat := 800
def BLOW_THRESHOLD : ℚ := 1 / 10
def BLOW_COOLDOWN : Int := 600
def blowProbability : ℚ := 45 / 100

/-! ## Data model -/

/-- One candle element: identity, position, and the two marks the script reads. -/
structure Candle where
  id : Nat
  left : ℚ
  top : ℚ
  out : Bool
  removing : Bool
deriving DecidableEq

/-- The three callbacks the script hands to `setTimeout` for a candle `c`:
the outer one (lines 145-164), the inner one (lines 152-163), and the
redirect (lines 159-161). -/
inductive Callback where
  | fade (c : Nat)
  | remove (c : Nat)
  | navigate
deriving DecidableEq

/-- A pending `setTimeout`: its delay in ms and what it runs. -/
structure Timer where
  delay : Nat
  callback : Callback
deriving DecidableEq

structure State where
  candles : List Candle
  blowingUnlocked : Bool
  lastBlowTime : Int
  notices : List String
  timers : List Timer
  href : Option String
  nextId : Nat
deriving DecidableEq

/-- State when the script has just been loaded (lines 11-17). -/
def init : State :=
  { candles := [], blowingUnlocked := false, lastBlowTime := 0,
    notices := [], timers := [], href := none, nextId := 0 }

/-! ## Helpers -/

/-- Function `updateCandleCount` (lines 20-25): number of candles without the `out` mark. -/
def updateCandleCount (s : State) : Nat :=
  (s.candles.filter (fun c => !c.out)).length

/-- Function `showNotice(msg)` (lines 27-51): the message shown to the user. -/
def showNotice (msg : String) (s : State) : State :=
  { s with notices := s.notices ++ [msg] }

def unlockedMsg : String := "Blowing unlocked! Make a wish 💖"

/-! ## Candle creation -/

/-- Function `addCandle(left, top)` (lines 54-81). -/
def addCandle (left top : ℚ) (s : State) : State :=
  let active := updateCandleCount s
  if active ≥ MAX_CANDLES then s
  else
    let candle : Candle :=
      { id := s.nextId, left := left, top := top, out := false, removing := false }
    let s1 := { s with candles := s.candles ++ [candle], nextId := s.nextId + 1 }
    let nowActive := updateCandleCount s1
    if !s1.blowingUnlocked && decide (nowActive ≥ MAX_CANDLES) then
      showNotice unlockedMsg { s1 with blowingUnlocked := true }
    else s1

/-! ## Microphone -/

/-- Loop of `getMicRMS` (lines 96-101) over the byte buffer. -/
def sumSquares (data : List (Fin 256)) : ℚ :=
  data.foldl (fun sum d => let v := ((d.val : ℚ) - 128) / 128; sum + v * v) 0

/-- Function `getMicRMS()` (lines 91-104).  `analyser` is `none` when no analyser is
attached and otherwise holds the bytes that `getByteTimeDomainData` delivers;
`sqrt` stands for `Math.sqrt`. -/
def getMicRMS (sqrt : ℚ → ℚ) (analyser : Option (List (Fin 256))) : ℚ :=
  match analyser with
  | none => 0
  | some data =>
    let bufferLength := data.length
    let sum := sumSquares data
    sqrt (sum / bufferLength)

/-- Function `isBlowing()` (lines 106-109), applied to the reading `rms` of `getMicRMS()`. -/
def isBlowing (rms : ℚ) : Bool :=
  decide (rms > BLOW_THRESHOLD)

/-! ## Blow logic -/

/-- Lines 138-139: `c.classList.add("out"); c.dataset.removing = "1"` on the
element with identity `c`. -/
def markOut (c : Nat) (s : State) : State :=
  let mark : Candle → Candle := fun el =>
    if el.id = c then { el with out := true, removing := true } else el
  { s with candles := s.candles.map mark }

/-- Call `setTimeout(callback, delay)`: one more pending timer. -/
def setTimeout (callback : Callback) (delay : Nat) (s : State) : State :=
  { s with timers := s.timers ++ [⟨delay, callback⟩] }

/-- The `candidates.forEach` loop (lines 135-166); `i` counts the calls of
`Math.random()` made so far in this event. -/
def blowLoop (draws : Nat → ℚ) : List Candle → Nat → State → State
  | [], _, s => s
  | c :: rest, i, s =>
    if draws i < blowProbability then
      blowLoop draws rest (i + 1) (setTimeout (.fade c.id) REMOVAL_DELAY (markOut c.id s))
    else
      blowLoop draws rest (i + 1) s

/-- Lines 123-126: the candles not marked `out` and not scheduled for removal. -/
def candidates (s : State) : List Candle :=
  s.candles.filter (fun c => !c.out && !c.removing)

/-- Function `performBlowEvent()` (lines 112-172). -/
def performBlowEvent (now : Int) (rms : ℚ) (draws : Nat → ℚ) (s : State) : State :=
  if !s.blowingUnlocked then s
  else if now - s.lastBlowTime < BLOW_COOLDOWN then s
  else if !isBlowing rms then s
  else
    let s1 := { s with lastBlowTime := now }
    let cands := candidates s1
    if cands.length = 0 then s1
    else blowLoop draws cands 0 s1

/-! ## Timer callbacks -/

/-- Outer timeout (lines 145-164): starts the fade and schedules the removal. -/
def fadeCallback (c : Nat) (s : State) : State :=
  setTimeout (.remove c) FADE_DURATION s

/-- Inner timeout (lines 152-163): drops `c` from the list and redirects when
no active candle remains. -/
def removeCallback (c : Nat) (s : State) : State :=
  let s1 := { s with candles := s.candles.filter (fun el => decide (el.id ≠ c)) }
  let remaining := updateCandleCount s1
  if remaining = 0 then setTimeout .navigate 800 s1 else s1

/-- Redirect (line 160). -/
def navigateCallback (s : State) : State :=
  { s with href := some "celebration.html" }

def runCallback : Callback → State → State
  | .fade c => fadeCallback c
  | .remove c => removeCallback c
  | .navigate => navigateCallback

/-- The `i`-th pending timer fires: it leaves the queue and its callback runs. -/
def fire (i : Nat) (s : State) : State :=
  match s.timers.get? i with
  | none => s
  | some t => runCallback t.callback { s with timers := s.timers.eraseIdx i }

/-- The unlock check at the head of the interval callback (lines 188-194). -/
def unlockCheck (s : State) : State :=
  if !s.blowingUnlocked then
    let active := updateCandleCount s
    if active ≥ MAX_CANDLES then showNotice unlockedMsg { s with blowingUnlocked := true }
    else s
  else s

/-- The `setInterval` callback (lines 186-196). -/
def intervalCallback (now : Int) (rms : ℚ) (draws : Nat → ℚ) (s : State) : State :=
  performBlowEvent now rms draws (unlockCheck s)

/-! ## Runs -/

/-- What can happen to the page: a click, an interval tick, a direct call of
`performBlowEvent`, a pending timer firing. -/
inductive Op where
  | addCandle (left top : ℚ)
  | tick (now : Int) (rms : ℚ) (draws : Nat → ℚ)
  | blow (now : Int) (rms : ℚ) (draws : Nat → ℚ)
  | timeout (i : Nat)

def step (s : State) : Op → State
  | .addCandle l t => addCandle l t s
  | .tick now rms draws => intervalCallback now rms draws s
  | .blow now rms draws => performBlowEvent now rms draws s
  | .timeout i => fire i s

def run (s : State) (ops : List Op) : State :=
  ops.foldl step s

/-! ## Observers used to state the properties -/

/-- What one step adds to the accepted blows of a run: a tick or a call of
`performBlowEvent` at clock value `now` counts as accepted when it overwrites
`lastBlowTime` (line 121 is the only assignment to it). -/
def acceptedHere (s : State) (op : Op) : List Int :=
  match op with
  | .tick now _ _ => if (step s op).lastBlowTime ≠ s.lastBlowTime then [now] else []
  | .blow now _ _ => if (step s op).lastBlowTime ≠ s.lastBlowTime then [now] else []
  | _ => []

/-- Times of the accepted blows of a run, in order. -/
def acceptedTimes (s : State) : List Op → List Int
  | [] => []
  | op :: rest => acceptedHere s op ++ acceptedTimes (step s op) rest

/-- The candle after lines 138-139 ran on it. -/
def extinguished (c : Candle) : Candle :=
  { c with out := true, removing := true }

/-- Outcome of one breath in the words of the specification: walk the list once;
a candle that is neither `out` nor removing consumes the next draw and is
extinguished when the draw is below the probability; every other candle is kept. -/
def blowOutcome (draws : Nat → ℚ) : List Candle → Nat → List Candle
  | [], _ => []
  | c :: cs, i =>
    if c.out = false ∧ c.removing = false then
      (if draws i < blowProbability then extinguished c else c)
        :: blowOutcome draws cs (i + 1)
    else c :: blowOutcome draws cs i

/-- How many of the first `k` draws fall below the probability. -/
def chosenCount (draws : Nat → ℚ) (k : Nat) : Nat :=
  ((List.range k).filter (fun i => decide (draws i < blowProbability))).length

/-- Timers scheduled by one breath, in the order of `blowOutcome`: one fade timer
for every candle that is extinguished. -/
def blowTimers (draws : Nat → ℚ) : List Candle → Nat → List Timer
  | [], _ => []
  | c :: cs, i =>
    if c.out = false ∧ c.removing = false then
      if draws i < blowProbability then
        ⟨REMOVAL_DELAY, .fade c.id⟩ :: blowTimers draws cs (i + 1)
      else blowTimers draws cs (i + 1)
    else blowTimers draws cs i

/-- Whether the timer is the fade or the removal timer of the candle `c`. -/
def aboutCandle (c : Nat) (t : Timer) : Bool :=
  decide (t.callback = .fade c ∨ t.callback = .remove c)

/-- Number of pending fade or removal timers of the candle `c`. -/
def pendingFor (c : Nat) (s : State) : Nat :=
  s.timers.countP (aboutCandle c)

/-- Whether the list holds the candle `c` carrying the `out` mark. -/
def isExtinguishing (c : Nat) (s : State) : Bool :=
  s.candles.any (fun el => decide (el.id = c) && el.out)

/-- Delay with which the script schedules each kind of callback
(lines 164, 163 and 161). -/
def nominalDelay : Callback → Nat
  | .fade _ => REMOVAL_DELAY
  | .remove _ => FADE_DURATION
  | .navigate => 800

/-- Well-formed states: element identities are distinct and allocated, the two
marks go together, every extinguishing candle has exactly one pending timer and
no other candle has any, and every timer carries the delay of its kind. -/
def WF (s : State) : Prop :=
  (s.candles.map Candle.id).Nodup
  ∧ (∀ c ∈ s.candles, c.id < s.nextId)
  ∧ (∀ c ∈ s.candles, c.removing = c.out)
  ∧ (∀ c, pendingFor c s = if isExtinguishing c s then 1 else 0)
  ∧ (∀ t ∈ s.timers, t.delay = nominalDelay t.callback)

/-- Cap invariant: the active count is at most the cap, and the flag is set
whenever the count sits at the cap. -/
def CapInv (s : State) : Prop :=
  updateCandleCount s ≤ MAX_CANDLES
  ∧ (updateCandleCount s = MAX_CANDLES → s.blowingUnlocked = true)

/-- A square root on the rationals that truncates to 52 fractional bits. -/
def sqrtFloor (x : ℚ) : ℚ :=
  (Nat.sqrt ⌊x * 4 ^ 52⌋₊ : ℚ) / 2 ^ 52

/-! ## Basic facts about the operations -/

theorem run_nil (s : State) : run s [] = s := rfl

theorem run_cons (s : State) (op : Op) (ops : List Op) :
    run s (op :: ops) = run (step s op) ops := rfl

theorem run_append (s : State) (xs ys : List Op) :
    run s (xs ++ ys) = run (run s xs) ys := by
  simp [run, List.foldl_append]

theorem run_snoc (s : State) (xs : List Op) (op : Op) :
    run s (xs ++ [op]) = step (run s xs) op := by
  simp [run, List.foldl_append]

/-- A property that holds initially and survives every step holds after every run. -/
theorem run_preserves (P : State → Prop) (hstep : ∀ s op, P s → P (step s op))
    (s : State) (hs : P s) (ops : List Op) : P (run s ops) := by
  induction ops generalizing s with
  | nil => exact hs
  | cons op ops ih => exact ih (step s op) (hstep s op hs)

theorem count_eq (s : State) :
    updateCandleCount s = (s.candles.filter (fun c => !c.out)).length := rfl

theorem count_snoc_alight (cs : List Candle) (c : Candle) (hc : c.out = false) :
    ((cs ++ [c]).filter (fun c => !c.out)).length
      = (cs.filter (fun c => !c.out)).length + 1 := by
  simp [List.filter_append, hc]

/-- Candles, flag, notices of `addCandle` when the cap is not reached. -/
theorem addCandle_of_lt (l t : ℚ) (s : State) (h : updateCandleCount s < MAX_CANDLES) :
    (addCandle l t s).candles = s.candles ++ [⟨s.nextId, l, t, false, false⟩]
    ∧ (addCandle l t s).lastBlowTime = s.lastBlowTime
    ∧ (addCandle l t s).timers = s.timers
    ∧ (addCandle l t s).href = s.href
    ∧ (addCandle l t s).nextId = s.nextId + 1
    ∧ (addCandle l t s).blowingUnlocked
        = (s.blowingUnlocked || decide (updateCandleCount s + 1 ≥ MAX_CANDLES)) := by
  have hn : ¬ updateCandleCount s ≥ MAX_CANDLES := Nat.not_le.mpr h
  have hc : updateCandleCount
      { s with candles := s.candles ++ [⟨s.nextId, l, t, false, false⟩],
               nextId := s.nextId + 1 } = updateCandleCount s + 1 := by
    simp [updateCandleCount, List.filter_append]
  unfold addCandle
  simp only [hn, if_false, hc]
  by_cases hu : s.blowingUnlocked = true
  · simp [hu]
  · by_cases hm : updateCandleCount s + 1 ≥ MAX_CANDLES
    · simp [hu, hm, showNotice]
    · simp [hu, hm]

theorem addCandle_of_ge (l t : ℚ) (s : State) (h : updateCandleCount s ≥ MAX_CANDLES) :
    addCandle l t s = s := by
  unfold addCandle
  simp [h]

theorem addCandle_count_of_lt (l t : ℚ) (s : State) (h : updateCandleCount s < MAX_CANDLES) :
    updateCandleCount (addCandle l t s) = updateCandleCount s + 1 := by
  rw [count_eq, (addCandle_of_lt l t s h).1, count_snoc_alight _ _ rfl, count_eq]

/-! ### Fields that the blow loop does not touch -/

theorem blowLoop_fields (draws : Nat → ℚ) (L : List Candle) (i : Nat) (s : State) :
    (blowLoop draws L i s).blowingUnlocked = s.blowingUnlocked
    ∧ (blowLoop draws L i s).lastBlowTime = s.lastBlowTime
    ∧ (blowLoop draws L i s).notices = s.notices
    ∧ (blowLoop draws L i s).href = s.href
    ∧ (blowLoop draws L i s).nextId = s.nextId := by
  induction L generalizing i s with
  | nil => simp [blowLoop]
  | cons c rest ih =>
    unfold blowLoop
    split
    · have h := ih (i + 1) (setTimeout (.fade c.id) REMOVAL_DELAY (markOut c.id s))
      simpa [setTimeout, markOut] using h
    · exact ih (i + 1) s

theorem filter_map_mark_le (c : Nat) (cs : List Candle) :
    ((cs.map (fun el => if el.id = c then { el with out := true, removing := true }
        else el)).filter (fun c => !c.out)).length
      ≤ (cs.filter (fun c => !c.out)).length := by
  induction cs with
  | nil => simp
  | cons x xs ih =>
    by_cases hx : x.id = c
    · by_cases ho : x.out = true
      · simpa [List.filter_cons, hx, ho] using ih
      · simp only [List.map_cons, hx, if_true, List.filter_cons, Bool.not_true]
        simp only [Bool.not_eq_true] at ho
        simp only [ho, Bool.not_false, if_true, List.length_cons]
        simp only [Bool.false_eq_true, if_false]
        exact Nat.le_succ_of_le ih
    · by_cases ho : x.out = true
      · simpa [List.filter_cons, hx, ho] using ih
      · simp only [Bool.not_eq_true] at ho
        simpa [List.filter_cons, hx, ho] using ih

theorem markOut_count_le (c : Nat) (s : State) :
    updateCandleCount (markOut c s) ≤ updateCandleCount s := by
  simpa [updateCandleCount, markOut] using filter_map_mark_le c s.candles

theorem blowLoop_count_le (draws : Nat → ℚ) (L : List Candle) (i : Nat) (s : State) :
    updateCandleCount (blowLoop draws L i s) ≤ updateCandleCount s := by
  induction L generalizing i s with
  | nil => simp [blowLoop]
  | cons c rest ih =>
    unfold blowLoop
    split
    · refine le_trans (ih (i + 1) _) ?_
      have h := markOut_count_le c.id s
      simpa [updateCandleCount, setTimeout] using h
    · exact ih (i + 1) s

/-! ### The gate of `performBlowEvent` -/

theorem performBlowEvent_accept (now : Int) (rms : ℚ) (draws : Nat → ℚ) (s : State)
    (hu : s.blowingUnlocked = true) (hc : BLOW_COOLDOWN ≤ now - s.lastBlowTime)
    (hr : BLOW_THRESHOLD < rms) :
    performBlowEvent now rms draws s
      = blowLoop draws (candidates { s with lastBlowTime := now }) 0
          { s with lastBlowTime := now } := by
  have hc2 : ¬ now - s.lastBlowTime < BLOW_COOLDOWN := not_lt.mpr hc
  have h1 : ¬ ((!s.blowingUnlocked) = true) := by simp [hu]
  have h3 : ¬ ((!isBlowing rms) = true) := by simp [isBlowing, hr]
  unfold performBlowEvent
  rw [if_neg h1, if_neg hc2, if_neg h3]
  by_cases h0 : (candidates { s with lastBlowTime := now }).length = 0
  · have hnil : candidates { s with lastBlowTime := now } = [] := List.length_eq_zero.mp h0
    simp [hnil, blowLoop]
  · simp only [h0, if_false]

theorem performBlowEvent_reject (now : Int) (rms : ℚ) (draws : Nat → ℚ) (s : State)
    (h : ¬ (s.blowingUnlocked = true ∧ BLOW_COOLDOWN ≤ now - s.lastBlowTime
          ∧ BLOW_THRESHOLD < rms)) :
    performBlowEvent now rms draws s = s := by
  unfold performBlowEvent
  by_cases hu : s.blowingUnlocked = true
  · by_cases hc : now - s.lastBlowTime < BLOW_COOLDOWN
    · simp [hu, hc]
    · by_cases hr : BLOW_THRESHOLD < rms
      · exact absurd ⟨hu, not_lt.mp hc, hr⟩ h
      · simp [hu, hc, isBlowing, hr]
  · simp [hu]

theorem performBlowEvent_fields (now : Int) (rms : ℚ) (draws : Nat → ℚ) (s : State) :
    (performBlowEvent now rms draws s).blowingUnlocked = s.blowingUnlocked
    ∧ (performBlowEvent now rms draws s).notices = s.notices
    ∧ (performBlowEvent now rms draws s).href = s.href
    ∧ (performBlowEvent now rms draws s).nextId = s.nextId := by
  by_cases h : s.blowingUnlocked = true ∧ BLOW_COOLDOWN ≤ now - s.lastBlowTime
      ∧ BLOW_THRESHOLD < rms
  · rw [performBlowEvent_accept now rms draws s h.1 h.2.1 h.2.2]
    have hf := blowLoop_fields draws (candidates { s with lastBlowTime := now }) 0
      { s with lastBlowTime := now }
    exact ⟨hf.1, hf.2.2.1, hf.2.2.2.1, hf.2.2.2.2⟩
  · rw [performBlowEvent_reject now rms draws s h]
    exact ⟨rfl, rfl, rfl, rfl⟩

/-- The timestamp after a call: `now` when the three checks pass, unchanged otherwise. -/
theorem performBlowEvent_lastBlowTime (now : Int) (rms : ℚ) (draws : Nat → ℚ) (s : State) :
    (performBlowEvent now rms draws s).lastBlowTime
      = if s.blowingUnlocked = true ∧ BLOW_COOLDOWN ≤ now - s.lastBlowTime
            ∧ BLOW_THRESHOLD < rms then now else s.lastBlowTime := by
  by_cases h : s.blowingUnlocked = true ∧ BLOW_COOLDOWN ≤ now - s.lastBlowTime
      ∧ BLOW_THRESHOLD < rms
  · rw [performBlowEvent_accept now rms draws s h.1 h.2.1 h.2.2, if_pos h]
    exact (blowLoop_fields draws _ 0 _).2.1
  · rw [performBlowEvent_reject now rms draws s h, if_neg h]

theorem performBlowEvent_count_le (now : Int) (rms : ℚ) (draws : Nat → ℚ) (s : State) :
    updateCandleCount (performBlowEvent now rms draws s) ≤ updateCandleCount s := by
  by_cases h : s.blowingUnlocked = true ∧ BLOW_COOLDOWN ≤ now - s.lastBlowTime
      ∧ BLOW_THRESHOLD < rms
  · rw [performBlowEvent_accept now rms draws s h.1 h.2.1 h.2.2]
    exact blowLoop_count_le draws _ 0 _
  · rw [performBlowEvent_reject now rms draws s h]

/-! ### Unlock check, interval callback, timers -/

theorem unlockCheck_fields (s : State) :
    (unlockCheck s).candles = s.candles
    ∧ (unlockCheck s).lastBlowTime = s.lastBlowTime
    ∧ (unlockCheck s).timers = s.timers
    ∧ (unlockCheck s).href = s.href
    ∧ (unlockCheck s).nextId = s.nextId
    ∧ (unlockCheck s).blowingUnlocked
        = (s.blowingUnlocked || decide (updateCandleCount s ≥ MAX_CANDLES)) := by
  unfold unlockCheck
  by_cases hu : s.blowingUnlocked = true
  · simp [hu]
  · by_cases hm : updateCandleCount s ≥ MAX_CANDLES
    · simp [hu, hm, showNotice]
    · simp [hu, hm]

theorem unlockCheck_count (s : State) :
    updateCandleCount (unlockCheck s) = updateCandleCount s := by
  rw [count_eq, (unlockCheck_fields s).1, count_eq]

theorem filter_filter_count_le (p : Candle → Bool) (cs : List Candle) :
    ((cs.filter p).filter (fun c => !c.out)).length
      ≤ (cs.filter (fun c => !c.out)).length := by
  rw [List.filter_filter, ← List.countP_eq_length_filter, ← List.countP_eq_length_filter]
  apply List.countP_mono_left
  intro x _ hx
  simp only [Bool.and_eq_true] at hx
  exact hx.1

theorem removeCallback_fields (c : Nat) (s : State) :
    (removeCallback c s).candles = s.candles.filter (fun el => decide (el.id ≠ c))
    ∧ (removeCallback c s).blowingUnlocked = s.blowingUnlocked
    ∧ (removeCallback c s).lastBlowTime = s.lastBlowTime
    ∧ (removeCallback c s).notices = s.notices
    ∧ (removeCallback c s).href = s.href
    ∧ (removeCallback c s).nextId = s.nextId := by
  unfold removeCallback
  simp only
  split <;> simp [setTimeout]

theorem runCallback_count_le (cb : Callback) (s : State) :
    updateCandleCount (runCallback cb s) ≤ updateCandleCount s := by
  cases cb with
  | fade c => simp [runCallback, fadeCallback, setTimeout, updateCandleCount]
  | remove c =>
    simp only [runCallback, count_eq, (removeCallback_fields c s).1]
    exact filter_filter_count_le _ _
  | navigate => simp [runCallback, navigateCallback, updateCandleCount]

theorem runCallback_fields (cb : Callback) (s : State) :
    (runCallback cb s).blowingUnlocked = s.blowingUnlocked
    ∧ (runCallback cb s).lastBlowTime = s.lastBlowTime
    ∧ (runCallback cb s).notices = s.notices
    ∧ (runCallback cb s).nextId = s.nextId := by
  cases cb with
  | fade c => simp [runCallback, fadeCallback, setTimeout]
  | remove c =>
    have h := removeCallback_fields c s
    exact ⟨h.2.1, h.2.2.1, h.2.2.2.1, h.2.2.2.2.2⟩
  | navigate => simp [runCallback, navigateCallback]

theorem fire_count_le (i : Nat) (s : State) :
    updateCandleCount (fire i s) ≤ updateCandleCount s := by
  unfold fire
  split
  · exact le_refl _
  · next t _ =>
    exact runCallback_count_le t.callback { s with timers := s.timers.eraseIdx i }

theorem fire_fields (i : Nat) (s : State) :
    (fire i s).blowingUnlocked = s.blowingUnlocked
    ∧ (fire i s).lastBlowTime = s.lastBlowTime
    ∧ (fire i s).notices = s.notices
    ∧ (fire i s).nextId = s.nextId := by
  unfold fire
  split
  · exact ⟨rfl, rfl, rfl, rfl⟩
  · next t _ =>
    exact runCallback_fields t.callback { s with timers := s.timers.eraseIdx i }

theorem intervalCallback_count_le (now : Int) (rms : ℚ) (draws : Nat → ℚ) (s : State) :
    updateCandleCount (intervalCallback now rms draws s) ≤ updateCandleCount s := by
  unfold intervalCallback
  exact le_trans (performBlowEvent_count_le now rms draws _) (le_of_eq (unlockCheck_count s))

theorem intervalCallback_unlocked (now : Int) (rms : ℚ) (draws : Nat → ℚ) (s : State) :
    (intervalCallback now rms draws s).blowingUnlocked
      = (s.blowingUnlocked || decide (updateCandleCount s ≥ MAX_CANDLES)) := by
  unfold intervalCallback
  rw [(performBlowEvent_fields now rms draws _).1, (unlockCheck_fields s).2.2.2.2.2]

/-- Only a click can raise the active count. -/
theorem step_count_le (s : State) (op : Op) (h : ∀ l t, op ≠ .addCandle l t) :
    updateCandleCount (step s op) ≤ updateCandleCount s := by
  cases op with
  | addCandle l t => exact absurd rfl (h l t)
  | tick now rms draws => exact intervalCallback_count_le now rms draws s
  | blow now rms draws => exact performBlowEvent_count_le now rms draws s
  | timeout i => exact fire_count_le i s

/-- No operation resets the flag. -/
theorem step_unlocked_mono (s : State) (op : Op) (h : s.blowingUnlocked = true) :
    (step s op).blowingUnlocked = true := by
  cases op with
  | addCandle l t =>
    by_cases hc : updateCandleCount s < MAX_CANDLES
    · simp [step, (addCandle_of_lt l t s hc).2.2.2.2.2, h]
    · simp [step, addCandle_of_ge l t s (Nat.not_lt.mp hc), h]
  | tick now rms draws => simp [step, intervalCallback_unlocked, h]
  | blow now rms draws => simp [step, (performBlowEvent_fields now rms draws s).1, h]
  | timeout i => simp [step, (fire_fields i s).1, h]

theorem run_unlocked_mono (s : State) (ops : List Op) (h : s.blowingUnlocked = true) :
    (run s ops).blowingUnlocked = true :=
  run_preserves (fun s => s.blowingUnlocked = true) step_unlocked_mono s h ops

theorem capInv_init : CapInv init := by
  constructor
  · simp [updateCandleCount, init, MAX_CANDLES]
  · intro h
    simp [updateCandleCount, init, MAX_CANDLES] at h

theorem capInv_step (s : State) (op : Op) (h : CapInv s) : CapInv (step s op) := by
  obtain ⟨hle, hu⟩ := h
  by_cases hadd : ∃ l t, op = .addCandle l t
  · obtain ⟨l, t, rfl⟩ := hadd
    by_cases hc : updateCandleCount s < MAX_CANDLES
    · have hcnt := addCandle_count_of_lt l t s hc
      have hfl := (addCandle_of_lt l t s hc).2.2.2.2.2
      refine ⟨?_, ?_⟩
      · simp only [step, hcnt]
        exact hc
      · intro h54
        simp only [step] at h54 ⊢
        rw [hcnt] at h54
        rw [hfl]
        simp [h54]
    · simp only [step, addCandle_of_ge l t s (Nat.not_lt.mp hc)]
      exact ⟨hle, hu⟩
  · have hne : ∀ l t, op ≠ .addCandle l t := fun l t he => hadd ⟨l, t, he⟩
    have hcl := step_count_le s op hne
    refine ⟨le_trans hcl hle, ?_⟩
    intro h54
    have : updateCandleCount s = MAX_CANDLES := le_antisymm hle (h54 ▸ hcl)
    exact step_unlocked_mono s op (hu this)

theorem capInv_run (ops : List Op) : CapInv (run init ops) :=
  run_preserves CapInv capInv_step init capInv_init ops

/-- A step that sets the flag is a click that raises the active count from 53 to 54. -/
theorem step_sets_flag (s : State) (op : Op) (h : CapInv s)
    (h0 : s.blowingUnlocked = false) (h1 : (step s op).blowingUnlocked = true) :
    (∃ l t, op = .addCandle l t) ∧ updateCandleCount s + 1 = MAX_CANDLES
      ∧ updateCandleCount (step s op) = MAX_CANDLES := by
  have hlt : updateCandleCount s < MAX_CANDLES := by
    rcases Nat.lt_or_ge (updateCandleCount s) MAX_CANDLES with h' | h'
    · exact h'
    · have := h.2 (le_antisymm h.1 h')
      rw [h0] at this
      exact absurd this (by decide)
  cases op with
  | addCandle l t =>
    have hfl := (addCandle_of_lt l t s hlt).2.2.2.2.2
    have hcnt := addCandle_count_of_lt l t s hlt
    simp only [step] at h1 ⊢
    rw [hfl, h0] at h1
    simp only [Bool.false_or, decide_eq_true_eq] at h1
    have h54 : updateCandleCount s + 1 = MAX_CANDLES := le_antisymm hlt h1
    exact ⟨⟨l, t, rfl⟩, h54, by rw [hcnt, h54]⟩
  | tick now rms draws =>
    simp only [step, intervalCallback_unlocked, h0, Bool.false_or, decide_eq_true_eq] at h1
    exact absurd h1 (Nat.not_le.mpr hlt)
  | blow now rms draws =>
    simp only [step, (performBlowEvent_fields now rms draws s).1, h0] at h1
    exact absurd h1 (by decide)
  | timeout i =>
    simp only [step, (fire_fields i s).1, h0] at h1
    exact absurd h1 (by decide)

theorem flag_iff_reached (ops : List Op) :
    (run init ops).blowingUnlocked = true ↔
      ∃ pre l t post, ops = pre ++ Op.addCandle l t :: post
        ∧ updateCandleCount (run init (pre ++ [Op.addCandle l t])) = MAX_CANDLES := by
  constructor
  · induction ops using List.reverseRecOn with
    | nil => intro h; simp [run, init] at h
    | append_singleton ops op ih =>
      intro h
      rw [run_snoc] at h
      by_cases hu : (run init ops).blowingUnlocked = true
      · obtain ⟨pre, l, t, post, he, hc⟩ := ih hu
        exact ⟨pre, l, t, post ++ [op], by simp [he], hc⟩
      · have hu0 : (run init ops).blowingUnlocked = false := by simpa using hu
        obtain ⟨⟨l, t, rfl⟩, _, hc⟩ := step_sets_flag _ op (capInv_run ops) hu0 h
        exact ⟨ops, l, t, [], rfl, by rw [run_snoc]; exact hc⟩
  · rintro ⟨pre, l, t, post, rfl, hc⟩
    have hsplit : pre ++ Op.addCandle l t :: post = (pre ++ [Op.addCandle l t]) ++ post := by
      simp
    rw [hsplit, run_append]
    exact run_unlocked_mono _ post ((capInv_run _).2 hc)

/-- After `n` clicks and nothing else: `min n 54` candles, all alight, and the
flag is set exactly from the 54th click on. -/
theorem clicks_only (ps : List (ℚ × ℚ)) :
    let s := run init (ps.map (fun p => Op.addCandle p.1 p.2))
    (∀ c ∈ s.candles, c.out = false)
    ∧ s.candles.length = min ps.length MAX_CANDLES
    ∧ (s.blowingUnlocked = true ↔ MAX_CANDLES ≤ ps.length) := by
  induction ps using List.reverseRecOn with
  | nil => simp [run, init, MAX_CANDLES]
  | append_singleton ps p ih =>
    simp only [List.map_append, List.map_cons, List.map_nil, run_snoc, step]
    simp only at ih
    obtain ⟨hall, hlen, hfl⟩ := ih
    set s := run init (ps.map (fun p => Op.addCandle p.1 p.2)) with hs
    have hcount : updateCandleCount s = s.candles.length := by
      rw [count_eq]
      congr 1
      apply List.filter_eq_self.mpr
      intro c hc
      simp [hall c hc]
    by_cases hlt : updateCandleCount s < MAX_CANDLES
    · obtain ⟨hcs, -, -, -, -, hfl2⟩ := addCandle_of_lt p.1 p.2 s hlt
      have hpl : ps.length < MAX_CANDLES := by
        rw [hcount, hlen] at hlt
        rcases min_lt_iff.mp hlt with h | h
        · exact h
        · exact absurd h (lt_irrefl _)
      have hlen2 : s.candles.length = ps.length := by
        rw [hlen]; exact min_eq_left (le_of_lt hpl)
      refine ⟨?_, ?_, ?_⟩
      · intro c hc
        rw [hcs] at hc
        rcases List.mem_append.mp hc with h | h
        · exact hall c h
        · simp at h; rw [h]
      · rw [hcs]
        simp only [List.length_append, List.length_cons, List.length_nil, hlen2]
        exact (min_eq_left hpl).symm
      · rw [hfl2, hcount, hlen2]
        have hnot : ¬ s.blowingUnlocked = true := fun h => absurd (hfl.mp h) (not_le.mpr hpl)
        simp only [Bool.not_eq_true] at hnot
        simp [hnot]
    · have hge : MAX_CANDLES ≤ updateCandleCount s := Nat.not_lt.mp hlt
      rw [addCandle_of_ge p.1 p.2 s hge]
      have hpl : MAX_CANDLES ≤ ps.length := by
        rw [hcount, hlen] at hge
        exact le_trans hge (min_le_left _ _)
      refine ⟨hall, ?_, ?_⟩
      · rw [hlen]
        simp only [List.length_append, List.length_cons, List.length_nil]
        rw [min_eq_right hpl, min_eq_right (Nat.le_succ_of_le hpl)]
      · simp only [List.length_append, List.length_cons, List.length_nil]
        exact ⟨fun _ => Nat.le_succ_of_le hpl, fun _ => hfl.mpr hpl⟩

/-! ### Cooldown -/

theorem acceptedTimes_cons (s : State) (op : Op) (rest : List Op) :
    acceptedTimes s (op :: rest) = acceptedHere s op ++ acceptedTimes (step s op) rest := rfl

theorem blow_last_cases (now : Int) (rms : ℚ) (draws : Nat → ℚ) (s : State) :
    ((performBlowEvent now rms draws s).lastBlowTime = s.lastBlowTime)
    ∨ ((performBlowEvent now rms draws s).lastBlowTime = now
        ∧ BLOW_COOLDOWN ≤ now - s.lastBlowTime) := by
  rw [performBlowEvent_lastBlowTime]
  split
  · next h => exact Or.inr ⟨rfl, h.2.1⟩
  · exact Or.inl rfl

theorem acceptedHere_cases (s : State) (op : Op) :
    (acceptedHere s op = [] ∧ (step s op).lastBlowTime = s.lastBlowTime)
    ∨ (∃ now, acceptedHere s op = [now] ∧ (step s op).lastBlowTime = now
        ∧ BLOW_COOLDOWN ≤ now - s.lastBlowTime) := by
  cases op with
  | addCandle l t =>
    left
    refine ⟨rfl, ?_⟩
    by_cases hc : updateCandleCount s < MAX_CANDLES
    · exact (addCandle_of_lt l t s hc).2.1
    · simp [step, addCandle_of_ge l t s (Nat.not_lt.mp hc)]
  | tick now rms draws =>
    have hl : (unlockCheck s).lastBlowTime = s.lastBlowTime := (unlockCheck_fields s).2.1
    rcases blow_last_cases now rms draws (unlockCheck s) with h | h
    · left
      have : (step s (.tick now rms draws)).lastBlowTime = s.lastBlowTime := by
        simp only [step, intervalCallback]; rw [h, hl]
      exact ⟨by simp [acceptedHere, this], this⟩
    · by_cases he : (step s (.tick now rms draws)).lastBlowTime = s.lastBlowTime
      · left
        exact ⟨by simp [acceptedHere, he], he⟩
      · right
        refine ⟨now, by simp [acceptedHere, he], ?_, ?_⟩
        · simp only [step, intervalCallback]; exact h.1
        · rw [← hl]; exact h.2
  | blow now rms draws =>
    rcases blow_last_cases now rms draws s with h | h
    · left
      exact ⟨by simp [acceptedHere, step, h], h⟩
    · by_cases he : (step s (.blow now rms draws)).lastBlowTime = s.lastBlowTime
      · left
        exact ⟨by simp [acceptedHere, he], he⟩
      · right
        exact ⟨now, by simp [acceptedHere, he], h.1, h.2⟩
  | timeout i =>
    left
    exact ⟨rfl, (fire_fields i s).2.1⟩

theorem acceptedTimes_spaced (ops : List Op) (s : State) :
    (∀ t ∈ acceptedTimes s ops, BLOW_COOLDOWN ≤ t - s.lastBlowTime)
    ∧ (acceptedTimes s ops).Pairwise (fun t1 t2 => BLOW_COOLDOWN ≤ t2 - t1) := by
  induction ops generalizing s with
  | nil => simp [acceptedTimes]
  | cons op rest ih =>
    rw [acceptedTimes_cons]
    obtain ⟨hall, hpair⟩ := ih (step s op)
    rcases acceptedHere_cases s op with ⟨he, hl⟩ | ⟨now, he, hl, hcool⟩
    · rw [he, List.nil_append]
      rw [hl] at hall
      exact ⟨hall, hpair⟩
    · rw [he]
      rw [hl] at hall
      have h600 : (0 : Int) ≤ BLOW_COOLDOWN := by decide
      refine ⟨?_, ?_⟩
      · intro t ht
        simp only [List.singleton_append, List.mem_cons] at ht
        rcases ht with rfl | ht
        · exact hcool
        · have := hall t ht
          omega
      · simp only [List.singleton_append, List.pairwise_cons]
        exact ⟨hall, hpair⟩

/-! ### The blow loop against its specification -/

theorem map_mark_of_ne (c : Nat) (l : List Candle) (h : ∀ x ∈ l, x.id ≠ c) :
    l.map (fun el => if el.id = c then { el with out := true, removing := true } else el)
      = l := by
  induction l with
  | nil => rfl
  | cons x xs ih =>
    have hx : x.id ≠ c := h x (List.mem_cons_self _ _)
    have hxs : ∀ y ∈ xs, y.id ≠ c := fun y hy => h y (List.mem_cons_of_mem _ hy)
    simp only [List.map_cons, hx, if_false, ih hxs]

theorem markOut_split (pre cs : List Candle) (c : Candle) (s : State)
    (hs : s.candles = pre ++ c :: cs) (hnd : ((pre ++ c :: cs).map Candle.id).Nodup) :
    (markOut c.id s).candles = (pre ++ [extinguished c]) ++ cs := by
  have hnd2 : (pre.map Candle.id ++ c.id :: cs.map Candle.id).Nodup := by
    simpa using hnd
  have hpre : ∀ x ∈ pre, x.id ≠ c.id := by
    intro x hx he
    have h1 : c.id ∈ pre.map Candle.id := he ▸ List.mem_map_of_mem _ hx
    exact (List.nodup_append.mp hnd2).2.2 h1 (List.mem_cons_self _ _) 
  have hcs : ∀ x ∈ cs, x.id ≠ c.id := by
    intro x hx he
    have h1 : c.id ∈ cs.map Candle.id := he ▸ List.mem_map_of_mem _ hx
    exact (List.nodup_cons.mp (List.nodup_append.mp hnd2).2.1).1 h1
  simp only [markOut, hs, List.map_append, List.map_cons, map_mark_of_ne _ _ hpre,
    map_mark_of_ne _ _ hcs, if_true, extinguished, List.append_assoc, List.singleton_append]

theorem blowLoop_spec (draws : Nat → ℚ) (post : List Candle) :
    ∀ (pre : List Candle) (i : Nat) (s : State), s.candles = pre ++ post →
      ((pre ++ post).map Candle.id).Nodup →
      (blowLoop draws (post.filter (fun c => !c.out && !c.removing)) i s).candles
          = pre ++ blowOutcome draws post i
      ∧ (blowLoop draws (post.filter (fun c => !c.out && !c.removing)) i s).timers
          = s.timers ++ blowTimers draws post i := by
  induction post with
  | nil =>
    intro pre i s hs _
    simp [blowLoop, blowOutcome, blowTimers, hs]
  | cons c cs ih =>
    intro pre i s hs hnd
    by_cases hcand : c.out = false ∧ c.removing = false
    · have hf : (c :: cs).filter (fun c => !c.out && !c.removing)
          = c :: cs.filter (fun c => !c.out && !c.removing) := by
        simp [List.filter_cons, hcand.1, hcand.2]
      rw [hf]
      by_cases hd : draws i < blowProbability
      · have hs2 : (setTimeout (.fade c.id) REMOVAL_DELAY (markOut c.id s)).candles
            = (pre ++ [extinguished c]) ++ cs := markOut_split pre cs c s hs hnd
        have hnd2 : (((pre ++ [extinguished c]) ++ cs).map Candle.id).Nodup := by
          simpa [extinguished] using hnd
        obtain ⟨h1, h2⟩ := ih (pre ++ [extinguished c]) (i + 1) _ hs2 hnd2
        simp only [blowLoop, hd, if_true, blowOutcome, blowTimers, hcand, and_self]
        refine ⟨by rw [h1]; simp, ?_⟩
        rw [h2]
        simp [setTimeout, markOut]
      · have hs2 : s.candles = (pre ++ [c]) ++ cs := by simp [hs]
        have hnd2 : (((pre ++ [c]) ++ cs).map Candle.id).Nodup := by simpa using hnd
        obtain ⟨h1, h2⟩ := ih (pre ++ [c]) (i + 1) s hs2 hnd2
        simp only [blowLoop, hd, if_false, blowOutcome, blowTimers, hcand, and_self, if_true]
        exact ⟨by rw [h1]; simp, h2⟩
    · have hf : (c :: cs).filter (fun c => !c.out && !c.removing)
          = cs.filter (fun c => !c.out && !c.removing) := by
        have : (!c.out && !c.removing) = false := by
          rcases Bool.eq_false_or_eq_true c.out with h1 | h1
          · simp [h1]
          · rcases Bool.eq_false_or_eq_true c.removing with h2 | h2
            · simp [h2]
            · exact absurd ⟨h1, h2⟩ hcand
        simp [List.filter_cons, this]
      rw [hf]
      have hs2 : s.candles = (pre ++ [c]) ++ cs := by simp [hs]
      have hnd2 : (((pre ++ [c]) ++ cs).map Candle.id).Nodup := by simpa using hnd
      obtain ⟨h1, h2⟩ := ih (pre ++ [c]) i s hs2 hnd2
      simp only [blowOutcome, blowTimers, hcand, if_false]
      exact ⟨by rw [h1]; simp, h2⟩

/-! ### Properties of the specified outcome -/

theorem blowOutcome_ids (draws : Nat → ℚ) (cs : List Candle) (i : Nat) :
    (blowOutcome draws cs i).map Candle.id = cs.map Candle.id := by
  induction cs generalizing i with
  | nil => rfl
  | cons c cs ih =>
    unfold blowOutcome
    split
    · split <;> simp [extinguished, ih]
    · simp [ih]

theorem blowOutcome_length (draws : Nat → ℚ) (cs : List Candle) (i : Nat) :
    (blowOutcome draws cs i).length = cs.length := by
  have h := congrArg List.length (blowOutcome_ids draws cs i)
  simpa using h

theorem blowOutcome_marks (draws : Nat → ℚ) (cs : List Candle) (i : Nat)
    (h : ∀ c ∈ cs, c.removing = c.out) :
    ∀ c ∈ blowOutcome draws cs i, c.removing = c.out := by
  induction cs generalizing i with
  | nil => intro c hc; simp [blowOutcome] at hc
  | cons x xs ih =>
    have hx := h x (List.mem_cons_self _ _)
    have hxs : ∀ c ∈ xs, c.removing = c.out := fun c hc => h c (List.mem_cons_of_mem _ hc)
    intro c hc
    unfold blowOutcome at hc
    split at hc
    · split at hc
      · rcases List.mem_cons.mp hc with rfl | hc
        · rfl
        · exact ih (i + 1) hxs c hc
      · rcases List.mem_cons.mp hc with rfl | hc
        · exact hx
        · exact ih (i + 1) hxs c hc
    · rcases List.mem_cons.mp hc with rfl | hc
      · exact hx
      · exact ih i hxs c hc

theorem blowTimers_mem (draws : Nat → ℚ) (cs : List Candle) (i : Nat) :
    ∀ t ∈ blowTimers draws cs i, ∃ c ∈ cs, t = ⟨REMOVAL_DELAY, .fade c.id⟩ := by
  induction cs generalizing i with
  | nil => intro t ht; simp [blowTimers] at ht
  | cons x xs ih =>
    intro t ht
    unfold blowTimers at ht
    split at ht
    · split at ht
      · rcases List.mem_cons.mp ht with rfl | ht
        · exact ⟨x, List.mem_cons_self _ _, rfl⟩
        · obtain ⟨c, hc, he⟩ := ih (i + 1) t ht
          exact ⟨c, List.mem_cons_of_mem _ hc, he⟩
      · obtain ⟨c, hc, he⟩ := ih (i + 1) t ht
        exact ⟨c, List.mem_cons_of_mem _ hc, he⟩
    · obtain ⟨c, hc, he⟩ := ih i t ht
      exact ⟨c, List.mem_cons_of_mem _ hc, he⟩

/-- No timer of the breath concerns a candle that is not in the list. -/
theorem blowTimers_countP_absent (draws : Nat → ℚ) (cs : List Candle) (i : Nat) (id : Nat)
    (h : id ∉ cs.map Candle.id) :
    (blowTimers draws cs i).countP (aboutCandle id) = 0 := by
  rw [List.countP_eq_zero]
  intro t ht
  obtain ⟨c, hc, rfl⟩ := blowTimers_mem draws cs i t ht
  have hne : c.id ≠ id := fun he => h (he ▸ List.mem_map_of_mem _ hc)
  simp [aboutCandle, hne]

theorem any_ext_absent (cs : List Candle) (id : Nat) (h : id ∉ cs.map Candle.id) :
    cs.any (fun el => decide (el.id = id) && el.out) = false := by
  rw [List.any_eq_false]
  intro c hc
  have hne : c.id ≠ id := fun he => h (he ▸ List.mem_map_of_mem _ hc)
  simp [hne]

/-- Every candle that the breath extinguishes gets exactly one timer, and no
other candle gets any. -/
theorem blowTimers_count (draws : Nat → ℚ) (cs : List Candle) (i : Nat) (id : Nat)
    (hnd : (cs.map Candle.id).Nodup) :
    (blowTimers draws cs i).countP (aboutCandle id)
        + (if cs.any (fun el => decide (el.id = id) && el.out) then 1 else 0)
      = if (blowOutcome draws cs i).any (fun el => decide (el.id = id) && el.out)
          then 1 else 0 := by
  induction cs generalizing i with
  | nil => simp [blowTimers, blowOutcome]
  | cons x xs ih =>
    have hnd' : x.id ∉ xs.map Candle.id ∧ (xs.map Candle.id).Nodup := by
      simpa using hnd
    by_cases hid : x.id = id
    · -- the head is the candle in question; the tail does not hold it
      have habs : id ∉ xs.map Candle.id := hid ▸ hnd'.1
      have habs2 : id ∉ (blowOutcome draws xs i).map Candle.id := by
        rw [blowOutcome_ids]; exact habs
      have habs3 : id ∉ (blowOutcome draws xs (i + 1)).map Candle.id := by
        rw [blowOutcome_ids]; exact habs
      have e1 := any_ext_absent xs id habs
      have e2 := any_ext_absent _ id habs2
      have e3 := any_ext_absent _ id habs3
      have t1 := blowTimers_countP_absent draws xs i id habs
      have t2 := blowTimers_countP_absent draws xs (i + 1) id habs
      by_cases hcand : x.out = false ∧ x.removing = false
      · by_cases hd : draws i < blowProbability
        · simp [blowTimers, blowOutcome, hcand, hd, List.countP_cons, aboutCandle, hid, e1,
            e3, t2, extinguished]
        · simp [blowTimers, blowOutcome, hcand, hd, hid, e1, e3, t2]
      · simp [blowTimers, blowOutcome, hcand, hid, e1, e2, t1]
    · by_cases hcand : x.out = false ∧ x.removing = false
      · by_cases hd : draws i < blowProbability
        · have := ih (i + 1) hnd'.2
          simpa [blowTimers, blowOutcome, hcand, hd, List.countP_cons, aboutCandle, hid,
            extinguished] using this
        · have := ih (i + 1) hnd'.2
          simpa [blowTimers, blowOutcome, hcand, hd, hid] using this
      · have := ih i hnd'.2
        simpa [blowTimers, blowOutcome, hcand, hid] using this

/-- The active count drops by the number of timers scheduled. -/
theorem blowOutcome_count (draws : Nat → ℚ) (cs : List Candle) (i : Nat) :
    ((blowOutcome draws cs i).filter (fun c => !c.out)).length
        + (blowTimers draws cs i).length
      = (cs.filter (fun c => !c.out)).length := by
  induction cs generalizing i with
  | nil => simp [blowOutcome, blowTimers]
  | cons x xs ih =>
    by_cases hcand : x.out = false ∧ x.removing = false
    · by_cases hd : draws i < blowProbability
      · have := ih (i + 1)
        simp only [blowOutcome, blowTimers, hcand, and_self, if_true, hd, List.filter_cons,
          extinguished, Bool.not_true, Bool.false_eq_true, if_false, List.length_cons,
          Bool.not_false]
        omega
      · have := ih (i + 1)
        simp only [blowOutcome, blowTimers, hcand, and_self, if_true, hd, List.filter_cons,
          if_false, List.length_cons, Bool.not_false]
        omega
    · have := ih i
      simp only [blowOutcome, blowTimers, hcand, if_false, List.filter_cons]
      by_cases ho : (!x.out) = true
      · simp only [ho, if_true, List.length_cons]
        omega
      · simp only [ho, if_false]
        exact this

/-- The timers scheduled are as many as the draws below the probability. -/
theorem blowTimers_length (draws : Nat → ℚ) (cs : List Candle) (i : Nat) :
    (blowTimers draws cs i).length
      = ((List.range (cs.filter (fun c => !c.out && !c.removing)).length).filter
          (fun j => decide (draws (i + j) < blowProbability))).length := by
  induction cs generalizing i with
  | nil => simp [blowTimers]
  | cons x xs ih =>
    by_cases hcand : x.out = false ∧ x.removing = false
    · have hf : (x :: xs).filter (fun c => !c.out && !c.removing)
          = x :: xs.filter (fun c => !c.out && !c.removing) := by
        simp [List.filter_cons, hcand.1, hcand.2]
      have hshift : ∀ k : Nat,
          ((List.map Nat.succ (List.range k)).filter
              (fun j => decide (draws (i + j) < blowProbability))).length
            = ((List.range k).filter
              (fun j => decide (draws (i + 1 + j) < blowProbability))).length := by
        intro k
        rw [List.filter_map, List.length_map]
        congr 1
        apply List.filter_congr
        intro j _
        simp only [Function.comp, Nat.succ_eq_add_one]
        rw [show i + (j + 1) = i + 1 + j by omega]
      rw [hf, List.length_cons, List.range_succ_eq_map, List.filter_cons]
      by_cases hd : draws i < blowProbability
      · simp only [blowTimers, hcand, and_self, if_true, hd, List.length_cons, Nat.add_zero,
          decide_True, ih (i + 1), hshift]
      · simp only [blowTimers, hcand, and_self, if_true, hd, if_false, Nat.add_zero,
          decide_False, ih (i + 1), hshift, Bool.false_eq_true]
    · have hf : (x :: xs).filter (fun c => !c.out && !c.removing)
          = xs.filter (fun c => !c.out && !c.removing) := by
        have : (!x.out && !x.removing) = false := by
          rcases Bool.eq_false_or_eq_true x.out with h1 | h1
          · simp [h1]
          · rcases Bool.eq_false_or_eq_true x.removing with h2 | h2
            · simp [h2]
            · exact absurd ⟨h1, h2⟩ hcand
        simp [List.filter_cons, this]
      rw [hf]
      simp only [blowTimers, hcand, if_false, ih i]

theorem candidates_eq_alight (cs : List Candle) (h : ∀ c ∈ cs, c.removing = c.out) :
    cs.filter (fun c => !c.out && !c.removing) = cs.filter (fun c => !c.out) := by
  apply List.filter_congr
  intro c hc
  rw [h c hc]
  simp

/-- With every draw below the probability no candle stays alight. -/
theorem blowOutcome_all (draws : Nat → ℚ) (cs : List Candle) (i : Nat)
    (hm : ∀ c ∈ cs, c.removing = c.out)
    (hd : ∀ j, j < (cs.filter (fun c => !c.out && !c.removing)).length →
      draws (i + j) < blowProbability) :
    ((blowOutcome draws cs i).filter (fun c => !c.out)).length = 0 := by
  have h1 := blowOutcome_count draws cs i
  have h2 := blowTimers_length draws cs i
  have h3 : ((List.range (cs.filter (fun c => !c.out && !c.removing)).length).filter
      (fun j => decide (draws (i + j) < blowProbability)))
      = List.range (cs.filter (fun c => !c.out && !c.removing)).length := by
    apply List.filter_eq_self.mpr
    intro j hj
    simpa using hd j (List.mem_range.mp hj)
  rw [h3, List.length_range, candidates_eq_alight cs hm] at h2
  omega

/-- With no draw below the probability nothing changes. -/
theorem blowOutcome_none (draws : Nat → ℚ) (cs : List Candle) (i : Nat)
    (hd : ∀ j, j < (cs.filter (fun c => !c.out && !c.removing)).length →
      ¬ draws (i + j) < blowProbability) :
    blowOutcome draws cs i = cs ∧ blowTimers draws cs i = [] := by
  induction cs generalizing i with
  | nil => simp [blowOutcome, blowTimers]
  | cons x xs ih =>
    by_cases hcand : x.out = false ∧ x.removing = false
    · have hf : (x :: xs).filter (fun c => !c.out && !c.removing)
          = x :: xs.filter (fun c => !c.out && !c.removing) := by
        simp [List.filter_cons, hcand.1, hcand.2]
      rw [hf] at hd
      have h0 : ¬ draws i < blowProbability := by
        simpa using hd 0 (by simp)
      have hrest : ∀ j, j < (xs.filter (fun c => !c.out && !c.removing)).length →
          ¬ draws (i + 1 + j) < blowProbability := by
        intro j hj
        have := hd (j + 1) (by simpa using hj)
        rwa [show i + (j + 1) = i + 1 + j by omega] at this
      obtain ⟨e1, e2⟩ := ih (i + 1) hrest
      simp [blowOutcome, blowTimers, hcand, h0, e1, e2]
    · have hf : (x :: xs).filter (fun c => !c.out && !c.removing)
          = xs.filter (fun c => !c.out && !c.removing) := by
        have : (!x.out && !x.removing) = false := by
          rcases Bool.eq_false_or_eq_true x.out with h1 | h1
          · simp [h1]
          · rcases Bool.eq_false_or_eq_true x.removing with h2 | h2
            · simp [h2]
            · exact absurd ⟨h1, h2⟩ hcand
        simp [List.filter_cons, this]
      rw [hf] at hd
      obtain ⟨e1, e2⟩ := ih i hd
      simp [blowOutcome, blowTimers, hcand, e1, e2]

/-- An accepted blow on a list of distinct elements yields the specified outcome. -/
theorem performBlowEvent_spec (now : Int) (rms : ℚ) (draws : Nat → ℚ) (s : State)
    (hnd : (s.candles.map Candle.id).Nodup)
    (hu : s.blowingUnlocked = true) (hc : BLOW_COOLDOWN ≤ now - s.lastBlowTime)
    (hr : BLOW_THRESHOLD < rms) :
    (performBlowEvent now rms draws s).candles = blowOutcome draws s.candles 0
    ∧ (performBlowEvent now rms draws s).timers = s.timers ++ blowTimers draws s.candles 0 := by
  rw [performBlowEvent_accept now rms draws s hu hc hr]
  have h := blowLoop_spec draws s.candles [] 0 { s with lastBlowTime := now } rfl
    (by simpa using hnd)
  simpa [candidates] using h

/-! ### Well-formedness is preserved -/

theorem WF_init : WF init := by
  refine ⟨?_, ?_, ?_, ?_, ?_⟩ <;> simp [init, pendingFor, isExtinguishing]

/-- Well-formedness only looks at the candles, the timers and the allocation counter. -/
theorem WF_congr (s r : State) (h : WF s) (hc : r.candles = s.candles)
    (ht : r.timers = s.timers) (hn : r.nextId = s.nextId) : WF r := by
  unfold WF pendingFor isExtinguishing at *
  rw [hc, ht, hn]
  exact h

theorem WF_addCandle (l t : ℚ) (s : State) (h : WF s) : WF (addCandle l t s) := by
  by_cases hlt : updateCandleCount s < MAX_CANDLES
  · obtain ⟨hcs, -, hts, -, hn, -⟩ := addCandle_of_lt l t s hlt
    obtain ⟨h1, h2, h3, h4, h5⟩ := h
    unfold WF pendingFor isExtinguishing
    rw [hcs, hts, hn]
    refine ⟨?_, ?_, ?_, ?_, h5⟩
    · rw [List.map_append, List.nodup_append]
      refine ⟨h1, by simp, ?_⟩
      intro a ha hb
      simp only [List.map_cons, List.map_nil, List.mem_singleton] at hb
      obtain ⟨c, hc, rfl⟩ := List.mem_map.mp ha
      have := h2 c hc
      omega
    · intro c hc
      rcases List.mem_append.mp hc with hc | hc
      · exact Nat.lt_succ_of_lt (h2 c hc)
      · simp only [List.mem_singleton] at hc
        rw [hc]
        exact Nat.lt_succ_self _
    · intro c hc
      rcases List.mem_append.mp hc with hc | hc
      · exact h3 c hc
      · simp only [List.mem_singleton] at hc
        rw [hc]
    · intro c
      have := h4 c
      unfold pendingFor isExtinguishing at this
      rw [this]
      simp
  · rw [addCandle_of_ge l t s (Nat.not_lt.mp hlt)]
    exact h

theorem WF_unlockCheck (s : State) (h : WF s) : WF (unlockCheck s) :=
  WF_congr s _ h (unlockCheck_fields s).1 (unlockCheck_fields s).2.2.1
    (unlockCheck_fields s).2.2.2.2.1

theorem WF_performBlowEvent (now : Int) (rms : ℚ) (draws : Nat → ℚ) (s : State)
    (h : WF s) : WF (performBlowEvent now rms draws s) := by
  by_cases hg : s.blowingUnlocked = true ∧ BLOW_COOLDOWN ≤ now - s.lastBlowTime
      ∧ BLOW_THRESHOLD < rms
  · obtain ⟨h1, h2, h3, h4, h5⟩ := h
    obtain ⟨hcs, hts⟩ := performBlowEvent_spec now rms draws s h1 hg.1 hg.2.1 hg.2.2
    have hn := (performBlowEvent_fields now rms draws s).2.2.2
    unfold WF pendingFor isExtinguishing
    rw [hcs, hts, hn]
    refine ⟨?_, ?_, ?_, ?_, ?_⟩
    · rw [blowOutcome_ids]; exact h1
    · intro c hc
      have hid : c.id ∈ (blowOutcome draws s.candles 0).map Candle.id :=
        List.mem_map_of_mem _ hc
      rw [blowOutcome_ids] at hid
      obtain ⟨c0, hc0, he⟩ := List.mem_map.mp hid
      rw [← he]
      exact h2 c0 hc0
    · exact blowOutcome_marks draws s.candles 0 h3
    · intro c
      have hp := h4 c
      unfold pendingFor isExtinguishing at hp
      rw [List.countP_append, hp, Nat.add_comm]
      exact blowTimers_count draws s.candles 0 c h1
    · intro t ht
      rcases List.mem_append.mp ht with ht | ht
      · exact h5 t ht
      · obtain ⟨c, _, rfl⟩ := blowTimers_mem draws s.candles 0 t ht
        rfl
  · rw [performBlowEvent_reject now rms draws s hg]
    exact h

/-- A pending timer splits the queue; firing it leaves the two sides. -/
theorem timers_split (ts : List Timer) (i : Nat) (t : Timer) (h : ts.get? i = some t) :
    ∃ a b, ts = a ++ t :: b ∧ ts.eraseIdx i = a ++ b := by
  induction ts generalizing i with
  | nil => simp at h
  | cons x xs ih =>
    cases i with
    | zero =>
      simp only [List.get?_cons_zero, Option.some.injEq] at h
      exact ⟨[], xs, by simp [h], by simp⟩
    | succ i =>
      simp only [List.get?_cons_succ] at h
      obtain ⟨a, b, h1, h2⟩ := ih i h
      exact ⟨x :: a, b, by simp [h1], by simp [h2]⟩

theorem any_ext_filter_ne (cs : List Candle) (c id : Nat) (h : id ≠ c) :
    (cs.filter (fun el => decide (el.id ≠ c))).any (fun el => decide (el.id = id) && el.out)
      = cs.any (fun el => decide (el.id = id) && el.out) := by
  induction cs with
  | nil => rfl
  | cons x xs ih =>
    by_cases hx : x.id = c
    · have hne : x.id ≠ id := fun he => h (he ▸ hx)
      have hf : (x :: xs).filter (fun el => decide (el.id ≠ c))
          = xs.filter (fun el => decide (el.id ≠ c)) := by
        simp [List.filter_cons, hx]
      rw [hf, ih, List.any_cons]
      simp [hne]
    · have hf : (x :: xs).filter (fun el => decide (el.id ≠ c))
          = x :: xs.filter (fun el => decide (el.id ≠ c)) := by
        simp [List.filter_cons, hx]
      rw [hf, List.any_cons, List.any_cons, ih]

theorem WF_fire (i : Nat) (s : State) (h : WF s) : WF (fire i s) := by
  unfold fire
  split
  · exact h
  · next t ht =>
    obtain ⟨a, b, hts, her⟩ := timers_split s.timers i t ht
    obtain ⟨h1, h2, h3, h4, h5⟩ := h
    have hcount : ∀ c, (a ++ b).countP (aboutCandle c) + (if aboutCandle c t then 1 else 0)
        = if isExtinguishing c s then 1 else 0 := by
      intro c
      have := h4 c
      unfold pendingFor at this
      rw [hts] at this
      rw [← this, List.countP_append, List.countP_append, List.countP_cons]
      omega
    have hdel : ∀ x ∈ a ++ b, x.delay = nominalDelay x.callback := by
      intro x hx
      apply h5
      rw [hts]
      rcases List.mem_append.mp hx with hx | hx
      · exact List.mem_append_left _ hx
      · exact List.mem_append_right _ (List.mem_cons_of_mem _ hx)
    rcases t with ⟨d, cb⟩
    cases cb with
    | fade c =>
      unfold WF pendingFor
      simp only [runCallback, fadeCallback, setTimeout, her]
      refine ⟨h1, h2, h3, ?_, ?_⟩
      · intro id
        have := hcount id
        rw [List.countP_append, List.countP_singleton]
        have e1 : aboutCandle id ⟨d, .fade c⟩ = aboutCandle id ⟨FADE_DURATION, .remove c⟩ := by
          simp [aboutCandle]
        rw [← e1]
        exact this
      · intro x hx
        rcases List.mem_append.mp hx with hx | hx
        · exact hdel x hx
        · simp only [List.mem_singleton] at hx
          rw [hx]
          rfl
    | remove c =>
      have hcs : (removeCallback c { s with timers := s.timers.eraseIdx i }).candles
          = s.candles.filter (fun el => decide (el.id ≠ c)) :=
        (removeCallback_fields c { s with timers := s.timers.eraseIdx i }).1
      have hn : (removeCallback c { s with timers := s.timers.eraseIdx i }).nextId
          = s.nextId :=
        (removeCallback_fields c { s with timers := s.timers.eraseIdx i }).2.2.2.2.2
      have htm : (removeCallback c { s with timers := s.timers.eraseIdx i }).timers = a ++ b
          ∨ (removeCallback c { s with timers := s.timers.eraseIdx i }).timers
              = (a ++ b) ++ [⟨800, .navigate⟩] := by
        unfold removeCallback
        simp only
        split
        · right
          simp only [setTimeout, her]
        · left
          simp only [her]
      have hsub : (s.candles.filter (fun el => decide (el.id ≠ c))).Sublist s.candles :=
        List.filter_sublist _
      have hgone : (s.candles.filter (fun el => decide (el.id ≠ c))).any
          (fun el => decide (el.id = c) && el.out) = false := by
        rw [List.any_eq_false]
        intro x hx
        have := (List.mem_filter.mp hx).2
        simp only [ne_eq, decide_not, Bool.not_eq_true', decide_eq_false_iff_not] at this
        simp [this]
      have hc0 : (a ++ b).countP (aboutCandle c) = 0 := by
        have := hcount c
        have e : aboutCandle c ⟨d, .remove c⟩ = true := by simp [aboutCandle]
        rw [e] at this
        simp only [if_true] at this
        split at this <;> omega
      have hother : ∀ id, id ≠ c → (a ++ b).countP (aboutCandle id)
          = if isExtinguishing id s then 1 else 0 := by
        intro id hid
        have := hcount id
        have hid2 : ¬ c = id := fun he => hid he.symm
        have e : aboutCandle id ⟨d, .remove c⟩ = false := by
          simp [aboutCandle, hid2]
        rw [e] at this
        simpa using this
      have hpend : ∀ id, (a ++ b).countP (aboutCandle id)
          = if (s.candles.filter (fun el => decide (el.id ≠ c))).any
              (fun el => decide (el.id = id) && el.out) then 1 else 0 := by
        intro id
        by_cases hid : id = c
        · rw [hid, hc0, hgone]
          rfl
        · rw [any_ext_filter_ne s.candles c id hid]
          exact hother id hid
      have hnav : ∀ id, aboutCandle id ⟨800, .navigate⟩ = false := by
        intro id
        simp [aboutCandle]
      simp only [runCallback]
      generalize removeCallback c { s with timers := s.timers.eraseIdx i } = r at hcs hn htm
      unfold WF pendingFor isExtinguishing
      rw [hcs, hn]
      refine ⟨?_, ?_, ?_, ?_, ?_⟩
      · exact List.Nodup.sublist (List.Sublist.map _ hsub) h1
      · intro x hx
        exact h2 x (hsub.subset hx)
      · intro x hx
        exact h3 x (hsub.subset hx)
      · intro id
        rcases htm with htm | htm
        · rw [htm]
          exact hpend id
        · rw [htm, List.countP_append, List.countP_singleton, hnav]
          simpa using hpend id
      · intro x hx
        rcases htm with htm | htm
        · rw [htm] at hx
          exact hdel x hx
        · rw [htm] at hx
          rcases List.mem_append.mp hx with hx | hx
          · exact hdel x hx
          · simp only [List.mem_singleton] at hx
            rw [hx]
            rfl
    | navigate =>
      unfold WF pendingFor
      simp only [runCallback, navigateCallback, her]
      refine ⟨h1, h2, h3, ?_, hdel⟩
      intro id
      have := hcount id
      have e : aboutCandle id ⟨d, .navigate⟩ = false := by simp [aboutCandle]
      rw [e] at this
      simpa [isExtinguishing] using this

theorem WF_step (s : State) (op : Op) (h : WF s) : WF (step s op) := by
  cases op with
  | addCandle l t => exact WF_addCandle l t s h
  | tick now rms draws => exact WF_performBlowEvent now rms draws _ (WF_unlockCheck s h)
  | blow now rms draws => exact WF_performBlowEvent now rms draws s h
  | timeout i => exact WF_fire i s h

theorem WF_run (ops : List Op) : WF (run init ops) :=
  run_preserves WF WF_step init WF_init ops

/-! ### Position by position -/

/-- The candle at position `j` after a breath: extinguished when it was a
candidate and its draw, the one numbered by the candidates before it, is below
the probability; itself otherwise. -/
theorem blowOutcome_get? (draws : Nat → ℚ) (cs : List Candle) (i j : Nat) :
    (blowOutcome draws cs i).get? j
      = (cs.get? j).map (fun c =>
          if (c.out = false ∧ c.removing = false)
              ∧ draws (i + ((cs.take j).filter (fun c => !c.out && !c.removing)).length)
                  < blowProbability
          then extinguished c else c) := by
  induction cs generalizing i j with
  | nil => simp [blowOutcome]
  | cons x xs ih =>
    cases j with
    | zero =>
      by_cases hcand : x.out = false ∧ x.removing = false
      · by_cases hd : draws i < blowProbability
        · simp [blowOutcome, hcand, hd]
        · simp [blowOutcome, hcand, hd]
      · simp [blowOutcome, hcand]
    | succ j =>
      by_cases hcand : x.out = false ∧ x.removing = false
      · have hf : ((x :: xs).take (j + 1)).filter (fun c => !c.out && !c.removing)
            = x :: (xs.take j).filter (fun c => !c.out && !c.removing) := by
          simp [List.take_succ_cons, List.filter_cons, hcand.1, hcand.2]
        have e : i + ((x :: (xs.take j).filter (fun c => !c.out && !c.removing)).length)
            = i + 1 + ((xs.take j).filter (fun c => !c.out && !c.removing)).length := by
          simp only [List.length_cons]; omega
        rw [hf, e]
        simp only [blowOutcome, hcand, and_self, if_true, List.get?_cons_succ]
        exact ih (i + 1) j
      · have hf : ((x :: xs).take (j + 1)).filter (fun c => !c.out && !c.removing)
            = (xs.take j).filter (fun c => !c.out && !c.removing) := by
          have : (!x.out && !x.removing) = false := by
            rcases Bool.eq_false_or_eq_true x.out with h1 | h1
            · simp [h1]
            · rcases Bool.eq_false_or_eq_true x.removing with h2 | h2
              · simp [h2]
              · exact absurd ⟨h1, h2⟩ hcand
          simp [List.take_succ_cons, List.filter_cons, this]
        rw [hf]
        simp only [blowOutcome, hcand, if_false, List.get?_cons_succ]
        exact ih i j

theorem blowOutcome_keep (draws : Nat → ℚ) (cs : List Candle) (i : Nat) (c : Candle)
    (hc : c ∈ cs) (hm : c.out = true ∨ c.removing = true) :
    c ∈ blowOutcome draws cs i := by
  induction cs generalizing i with
  | nil => simp at hc
  | cons x xs ih =>
    rcases List.mem_cons.mp hc with rfl | hc
    · have hn : ¬ (c.out = false ∧ c.removing = false) := by
        rintro ⟨h1, h2⟩
        rcases hm with h | h
        · rw [h1] at h; exact absurd h (by decide)
        · rw [h2] at h; exact absurd h (by decide)
      simp [blowOutcome, hn]
    · unfold blowOutcome
      split
      · exact List.mem_cons_of_mem _ (ih (i + 1) hc)
      · exact List.mem_cons_of_mem _ (ih i hc)

/-! ### Loudness -/

theorem sumSquares_foldl (data : List (Fin 256)) (acc : ℚ) :
    data.foldl (fun sum d => let v := ((d.val : ℚ) - 128) / 128; sum + v * v) acc
      = acc + (data.map (fun d : Fin 256 => (((d.val : ℚ) - 128) / 128) ^ 2)).sum := by
  induction data generalizing acc with
  | nil => simp
  | cons d ds ih =>
    simp only [List.foldl_cons, List.map_cons, List.sum_cons]
    rw [ih]
    ring

theorem sumSquares_eq (data : List (Fin 256)) :
    sumSquares data = (data.map (fun d : Fin 256 => (((d.val : ℚ) - 128) / 128) ^ 2)).sum := by
  unfold sumSquares
  rw [sumSquares_foldl]
  simp

theorem sample_sq_bounds (d : Fin 256) :
    0 ≤ (((d.val : ℚ) - 128) / 128) ^ 2 ∧ (((d.val : ℚ) - 128) / 128) ^ 2 ≤ 1 := by
  refine ⟨sq_nonneg _, ?_⟩
  have h1 : (d.val : ℚ) ≤ 255 := by
    have : d.val ≤ 255 := Nat.lt_succ_iff.mp d.isLt
    exact_mod_cast this
  have h2 : (0 : ℚ) ≤ (d.val : ℚ) := Nat.cast_nonneg _
  rw [sq_le_one_iff_abs_le_one, abs_le]
  constructor
  · rw [le_div_iff₀ (by norm_num)]
    linarith
  · rw [div_le_iff₀ (by norm_num)]
    linarith

theorem sumSquares_bounds (data : List (Fin 256)) :
    0 ≤ sumSquares data ∧ sumSquares data ≤ data.length := by
  rw [sumSquares_eq]
  induction data with
  | nil => simp
  | cons d ds ih =>
    have hb := sample_sq_bounds d
    simp only [List.map_cons, List.sum_cons, List.length_cons, Nat.cast_add, Nat.cast_one]
    constructor
    · linarith [ih.1, hb.1]
    · linarith [ih.2, hb.2]

theorem meanSquare_bounds (data : List (Fin 256)) (h : data ≠ []) :
    0 ≤ sumSquares data / data.length ∧ sumSquares data / data.length ≤ 1 := by
  have hpos : (0 : ℚ) < data.length := by
    have : 0 < data.length := List.length_pos.mpr h
    exact_mod_cast this
  have hb := sumSquares_bounds data
  exact ⟨div_nonneg hb.1 (le_of_lt hpos), (div_le_one hpos).mpr hb.2⟩

theorem sqrtFloor_mono : Monotone sqrtFloor := by
  intro x y hxy
  unfold sqrtFloor
  have h1 : x * 4 ^ 52 ≤ y * 4 ^ 52 := mul_le_mul_of_nonneg_right hxy (by positivity)
  have h2 : ⌊x * 4 ^ 52⌋₊ ≤ ⌊y * 4 ^ 52⌋₊ := Nat.floor_mono h1
  have h3 : Nat.sqrt ⌊x * 4 ^ 52⌋₊ ≤ Nat.sqrt ⌊y * 4 ^ 52⌋₊ := Nat.sqrt_le_sqrt h2
  have h4 : (Nat.sqrt ⌊x * 4 ^ 52⌋₊ : ℚ) ≤ (Nat.sqrt ⌊y * 4 ^ 52⌋₊ : ℚ) := by
    exact_mod_cast h3
  exact div_le_div_of_nonneg_right h4 (by positivity)

theorem sqrtFloor_zero : sqrtFloor 0 = 0 := by
  simp [sqrtFloor]

theorem sqrtFloor_one : sqrtFloor 1 = 1 := by
  unfold sqrtFloor
  have h1 : ⌊(1 : ℚ) * 4 ^ 52⌋₊ = 2 ^ 52 * 2 ^ 52 := by
    have : ((1 : ℚ) * 4 ^ 52) = ((2 ^ 52 * 2 ^ 52 : ℕ) : ℚ) := by norm_num
    rw [this, Nat.floor_natCast]
  rw [h1, Nat.sqrt_eq]
  norm_num

/-! ### Timers of a candle -/

theorem new_timer_of_newly_out (draws : Nat → ℚ) (cs : List Candle) (c : Nat)
    (hnd : (cs.map Candle.id).Nodup)
    (h0 : cs.any (fun el => decide (el.id = c) && el.out) = false)
    (h1 : (blowOutcome draws cs 0).any (fun el => decide (el.id = c) && el.out) = true) :
    (⟨REMOVAL_DELAY, .fade c⟩ : Timer) ∈ blowTimers draws cs 0 := by
  have hcnt := blowTimers_count draws cs 0 c hnd
  rw [h0, h1] at hcnt
  simp only [Bool.false_eq_true, if_false, if_true, Nat.add_zero] at hcnt
  have hpos : 0 < (blowTimers draws cs 0).countP (aboutCandle c) := by omega
  obtain ⟨t, ht, hab⟩ := List.countP_pos_iff.mp hpos
  obtain ⟨x, _, rfl⟩ := blowTimers_mem draws cs 0 t ht
  have hx : x.id = c := by simpa [aboutCandle] using hab
  rw [← hx]
  exact ht

theorem unlockCheck_of_unlocked (s : State) (h : s.blowingUnlocked = true) :
    unlockCheck s = s := by
  simp [unlockCheck, h]

theorem length_eq_out_add_alight (cs : List Candle) :
    cs.length = (cs.filter (fun c => c.out)).length + (cs.filter (fun c => !c.out)).length := by
  induction cs with
  | nil => rfl
  | cons x xs ih =>
    rcases Bool.eq_false_or_eq_true x.out with h | h
    · simp only [List.filter_cons, h, if_true, Bool.not_true, Bool.false_eq_true, if_false,
        List.length_cons]
      omega
    · simp only [List.filter_cons, h, Bool.false_eq_true, if_false, Bool.not_false, if_true,
        List.length_cons]
      omega

/-! ## The claims -/

/-- C1: in every state reachable from the initial state by clicks, interval
ticks, calls of `performBlowEvent` and firing timers, with any clock values,
loudness readings and random draws, the active count computed by
`updateCandleCount` is at most `MAX_CANDLES`, which is 54. -/
theorem active_count_le_cap (ops : List Op) :
    updateCandleCount (run init ops) ≤ MAX_CANDLES ∧ MAX_CANDLES = 54 :=
  ⟨(capInv_run ops).1, rfl⟩

/-- C2: after any run from the initial state, `blowingUnlocked` is true exactly
when the active count equalled 54 right after some `addCandle` of the run; the
step that sets the flag is an `addCandle` that raises the count from 53 to 54,
before which the count never was 54; once set the flag stays set; and after
`n` clicks alone it is set exactly when `n ≥ 54`. -/
theorem unlocked_iff_cap_reached (ops : List Op) :
    ((run init ops).blowingUnlocked = true ↔
      ∃ pre l t post, ops = pre ++ Op.addCandle l t :: post
        ∧ updateCandleCount (run init (pre ++ [Op.addCandle l t])) = 54)
    ∧ (∀ op, (run init ops).blowingUnlocked = false →
        (run init (ops ++ [op])).blowingUnlocked = true →
          (∃ l t, op = Op.addCandle l t)
          ∧ updateCandleCount (run init ops) = 53
          ∧ updateCandleCount (run init (ops ++ [op])) = 54
          ∧ ∀ pre rest, ops = pre ++ rest → updateCandleCount (run init pre) < 54)
    ∧ (∀ more, (run init ops).blowingUnlocked = true →
        (run init (ops ++ more)).blowingUnlocked = true)
    ∧ (∀ ps : List (ℚ × ℚ),
        (run init (ps.map (fun p => Op.addCandle p.1 p.2))).blowingUnlocked = true
          ↔ 54 ≤ ps.length) := by
  refine ⟨flag_iff_reached ops, ?_, ?_, ?_⟩
  · intro op h0 h1
    rw [run_snoc] at h1 ⊢
    obtain ⟨hadd, h53, h54⟩ := step_sets_flag _ op (capInv_run ops) h0 h1
    refine ⟨hadd, ?_, h54, ?_⟩
    · have : updateCandleCount (run init ops) + 1 = 54 := h53
      omega
    · intro pre rest he
      have hle : updateCandleCount (run init pre) ≤ 54 := (capInv_run pre).1
      rcases Nat.lt_or_ge (updateCandleCount (run init pre)) 54 with h | h
      · exact h
      · have hfl := (capInv_run pre).2 (le_antisymm hle h)
        have := run_unlocked_mono _ rest hfl
        rw [← run_append, ← he, h0] at this
        exact absurd this (by decide)
  · intro more h
    rw [run_append]
    exact run_unlocked_mono _ more h
  · intro ps
    exact (clicks_only ps).2.2

/-- C3: when the active count is at least 54, `addCandle` returns the state as
it was (same candles and marks, flag, timestamp, timers, no notice); otherwise
it appends one new candle at the end, alight and at the given position, keeps
the existing candles in place, and the active count grows by exactly one. -/
theorem addCandle_rejects_or_appends (s : State) (left top : ℚ) :
    (updateCandleCount s ≥ 54 → addCandle left top s = s)
    ∧ (updateCandleCount s < 54 →
        (∃ c : Candle, (addCandle left top s).candles = s.candles ++ [c]
          ∧ c.left = left ∧ c.top = top ∧ c.out = false ∧ c.removing = false)
        ∧ updateCandleCount (addCandle left top s) = updateCandleCount s + 1) := by
  refine ⟨fun h => addCandle_of_ge left top s h, fun h => ⟨?_, ?_⟩⟩
  · exact ⟨⟨s.nextId, left, top, false, false⟩, (addCandle_of_lt left top s h).1,
      rfl, rfl, rfl, rfl⟩
  · exact addCandle_count_of_lt left top s h

/-- C4: `performBlowEvent` accepts a blow, that is overwrites `lastBlowTime` with
`now` and runs the extinguish loop, exactly when `blowingUnlocked` is true,
`now - lastBlowTime ≥ BLOW_COOLDOWN = 600` and `rms > BLOW_THRESHOLD = 0.1`
(strictly); when one of the three fails, in particular whenever the flag is
false whatever the loudness, the state is returned unchanged. -/
theorem performBlowEvent_gate (s : State) (now : Int) (rms : ℚ) (draws : Nat → ℚ) :
    (performBlowEvent now rms draws s ≠ s ∨
        (performBlowEvent now rms draws s).lastBlowTime ≠ s.lastBlowTime →
      s.blowingUnlocked = true ∧ now - s.lastBlowTime ≥ BLOW_COOLDOWN
        ∧ rms > BLOW_THRESHOLD)
    ∧ (s.blowingUnlocked = true ∧ now - s.lastBlowTime ≥ BLOW_COOLDOWN
        ∧ rms > BLOW_THRESHOLD →
      (performBlowEvent now rms draws s).lastBlowTime = now
      ∧ (performBlowEvent now rms draws s).lastBlowTime ≠ s.lastBlowTime
      ∧ performBlowEvent now rms draws s
          = blowLoop draws (candidates { s with lastBlowTime := now }) 0
              { s with lastBlowTime := now })
    ∧ (¬ (s.blowingUnlocked = true ∧ now - s.lastBlowTime ≥ BLOW_COOLDOWN
        ∧ rms > BLOW_THRESHOLD) → performBlowEvent now rms draws s = s)
    ∧ (s.blowingUnlocked = false → performBlowEvent now rms draws s = s)
    ∧ BLOW_COOLDOWN = 600 ∧ BLOW_THRESHOLD = 1 / 10 := by
  refine ⟨?_, ?_, ?_, ?_, rfl, rfl⟩
  · intro h
    by_contra hg
    have he := performBlowEvent_reject now rms draws s hg
    rcases h with h | h
    · exact h he
    · exact h (by rw [he])
  · rintro ⟨hu, hc, hr⟩
    have hl : (performBlowEvent now rms draws s).lastBlowTime = now := by
      rw [performBlowEvent_lastBlowTime, if_pos ⟨hu, hc, hr⟩]
    refine ⟨hl, ?_, performBlowEvent_accept now rms draws s hu hc hr⟩
    rw [hl]
    intro he
    rw [he] at hc
    simp [BLOW_COOLDOWN] at hc
  · intro hg
    exact performBlowEvent_reject now rms draws s hg
  · intro hu
    apply performBlowEvent_reject
    rintro ⟨h, -, -⟩
    rw [hu] at h
    exact absurd h (by decide)

/-- C5: in every run from every state, any two accepted blows are at least
`BLOW_COOLDOWN = 600` ms apart, whatever the clock values and the loudness
readings; and of two calls 100 ms apart that both carry qualifying loudness,
the first of which passes the gate, only the first is accepted. -/
theorem accepted_blows_spaced (s : State) (ops : List Op) :
    (acceptedTimes s ops).Pairwise (fun t1 t2 => t2 - t1 ≥ 600)
    ∧ (∀ now rms1 rms2 d1 d2, s.blowingUnlocked = true →
        now - s.lastBlowTime ≥ BLOW_COOLDOWN → rms1 > BLOW_THRESHOLD →
        rms2 > BLOW_THRESHOLD →
        acceptedTimes s [Op.blow now rms1 d1, Op.blow (now + 100) rms2 d2] = [now]) := by
  refine ⟨(acceptedTimes_spaced ops s).2, ?_⟩
  intro now rms1 rms2 d1 d2 hu hc hr1 _
  have hl : (performBlowEvent now rms1 d1 s).lastBlowTime = now := by
    rw [performBlowEvent_lastBlowTime, if_pos ⟨hu, hc, hr1⟩]
  have hne : now ≠ s.lastBlowTime := by
    intro he
    rw [he] at hc
    simp [BLOW_COOLDOWN] at hc
  have hu1 : (performBlowEvent now rms1 d1 s).blowingUnlocked = true := by
    rw [(performBlowEvent_fields now rms1 d1 s).1, hu]
  have hrej : performBlowEvent (now + 100) rms2 d2 (performBlowEvent now rms1 d1 s)
      = performBlowEvent now rms1 d1 s := by
    apply performBlowEvent_reject
    rintro ⟨-, h, -⟩
    rw [hl] at h
    simp [BLOW_COOLDOWN] at h
  simp only [acceptedTimes, acceptedHere, step, hl, hrej]
  simp [hne]

/-- C6: in every reachable state the two marks go together and every
extinguishing candle has exactly one pending timer while no other candle has
any; a candle already marked is no candidate of a further blow, which keeps it
as it is and schedules nothing more for it; a candle newly marked by a blow gets
one timer with `REMOVAL_DELAY`, which on firing is replaced by one removal timer
with `FADE_DURATION`, which on firing takes the candle off the list and leaves
no timer for it; the two delays add up to 2000 + 800 = 2800 ms. -/
theorem extinguished_once (ops : List Op) (now : Int) (rms : ℚ) (draws : Nat → ℚ) :
    (∀ c ∈ (run init ops).candles, c.removing = c.out)
    ∧ (∀ c, pendingFor c (run init ops) = if isExtinguishing c (run init ops) then 1 else 0)
    ∧ (∀ c ∈ (run init ops).candles, c.out = true ∨ c.removing = true →
        c ∉ candidates (run init ops)
        ∧ c ∈ (performBlowEvent now rms draws (run init ops)).candles
        ∧ pendingFor c.id (performBlowEvent now rms draws (run init ops))
            = pendingFor c.id (run init ops))
    ∧ (∀ c, isExtinguishing c (run init ops) = false →
        isExtinguishing c (performBlowEvent now rms draws (run init ops)) = true →
        (⟨REMOVAL_DELAY, .fade c⟩ : Timer)
            ∈ (performBlowEvent now rms draws (run init ops)).timers
        ∧ pendingFor c (performBlowEvent now rms draws (run init ops)) = 1)
    ∧ (∀ i d c, (run init ops).timers.get? i = some ⟨d, .fade c⟩ →
        d = REMOVAL_DELAY
        ∧ (fire i (run init ops)).timers
            = (run init ops).timers.eraseIdx i ++ [⟨FADE_DURATION, .remove c⟩]
        ∧ pendingFor c (fire i (run init ops)) = 1)
    ∧ (∀ i d c, (run init ops).timers.get? i = some ⟨d, .remove c⟩ →
        d = FADE_DURATION
        ∧ (∀ x ∈ (fire i (run init ops)).candles, x.id ≠ c)
        ∧ pendingFor c (fire i (run init ops)) = 0)
    ∧ REMOVAL_DELAY + FADE_DURATION = 2800 := by
  have hwf := WF_run ops
  have hwfr : WF (performBlowEvent now rms draws (run init ops)) :=
    WF_performBlowEvent now rms draws _ hwf
  generalize run init ops = s at hwf hwfr
  obtain ⟨h1, h2, h3, h4, h5⟩ := hwf
  refine ⟨h3, h4, ?_, ?_, ?_, ?_, rfl⟩
  · intro c hc hm
    have hout : c.out = true := by
      rcases hm with h | h
      · exact h
      · rw [← h3 c hc]; exact h
    have hkeep : c ∈ (performBlowEvent now rms draws s).candles := by
      by_cases hg : s.blowingUnlocked = true ∧ BLOW_COOLDOWN ≤ now - s.lastBlowTime
          ∧ BLOW_THRESHOLD < rms
      · rw [(performBlowEvent_spec now rms draws s h1 hg.1 hg.2.1 hg.2.2).1]
        exact blowOutcome_keep draws s.candles 0 c hc hm
      · rw [performBlowEvent_reject now rms draws s hg]
        exact hc
    refine ⟨?_, hkeep, ?_⟩
    · intro hcand
      have := (List.mem_filter.mp hcand).2
      simp [hout] at this
    · have e1 : isExtinguishing c.id s = true := by
        unfold isExtinguishing
        rw [List.any_eq_true]
        exact ⟨c, hc, by simp [hout]⟩
      have e2 : isExtinguishing c.id (performBlowEvent now rms draws s) = true := by
        unfold isExtinguishing
        rw [List.any_eq_true]
        exact ⟨c, hkeep, by simp [hout]⟩
      rw [h4 c.id, hwfr.2.2.2.1 c.id, e1, e2]
  · intro c e0 e1
    refine ⟨?_, by rw [hwfr.2.2.2.1 c, e1]; rfl⟩
    by_cases hg : s.blowingUnlocked = true ∧ BLOW_COOLDOWN ≤ now - s.lastBlowTime
        ∧ BLOW_THRESHOLD < rms
    · obtain ⟨hcs, hts⟩ := performBlowEvent_spec now rms draws s h1 hg.1 hg.2.1 hg.2.2
      rw [hts]
      apply List.mem_append_right
      unfold isExtinguishing at e0 e1
      rw [hcs] at e1
      exact new_timer_of_newly_out draws s.candles c h1 e0 e1
    · rw [performBlowEvent_reject now rms draws s hg, e0] at e1
      exact absurd e1 (by decide)
  · intro i d c hget
    have hd : d = REMOVAL_DELAY := h5 ⟨d, .fade c⟩ (List.get?_mem hget)
    have htm : (fire i s).timers = s.timers.eraseIdx i ++ [⟨FADE_DURATION, .remove c⟩] := by
      unfold fire
      rw [hget]
      rfl
    refine ⟨hd, htm, ?_⟩
    have hwff := WF_fire i s ⟨h1, h2, h3, h4, h5⟩
    have hle : pendingFor c (fire i s) ≤ 1 := by
      rw [hwff.2.2.2.1 c]
      split <;> omega
    have hpos : 0 < pendingFor c (fire i s) := by
      unfold pendingFor
      rw [htm]
      exact List.countP_pos_iff.mpr ⟨⟨FADE_DURATION, .remove c⟩, by simp, by simp [aboutCandle]⟩
    omega
  · intro i d c hget
    have hd : d = FADE_DURATION := h5 ⟨d, .remove c⟩ (List.get?_mem hget)
    have hfire : fire i s = removeCallback c { s with timers := s.timers.eraseIdx i } := by
      unfold fire
      rw [hget]
      rfl
    have hcs : (fire i s).candles = s.candles.filter (fun el => decide (el.id ≠ c)) := by
      rw [hfire]
      exact (removeCallback_fields c _).1
    have hgone : ∀ x ∈ (fire i s).candles, x.id ≠ c := by
      intro x hx
      rw [hcs] at hx
      simpa using (List.mem_filter.mp hx).2
    refine ⟨hd, hgone, ?_⟩
    have hwff := WF_fire i s ⟨h1, h2, h3, h4, h5⟩
    rw [hwff.2.2.2.1 c]
    have : isExtinguishing c (fire i s) = false := by
      unfold isExtinguishing
      rw [List.any_eq_false]
      intro x hx
      simp [hgone x hx]
    rw [this]
    rfl

/-- C7: for a square root that is monotone and fixes 0 and 1, `getMicRMS` on a
non-empty buffer of bytes is the root of the mean of `((d - 128) / 128) ^ 2`
and lies in `[0, 1]`; every squared term is at most 1, with equality at
`d = 0`; the result is 0 when every sample is 128; without analyser the result
is 0 and `isBlowing` is false. -/
theorem getMicRMS_range (sqrt : ℚ → ℚ) (hmono : Monotone sqrt) (h0 : sqrt 0 = 0)
    (h1 : sqrt 1 = 1) :
    (∀ data : List (Fin 256), data ≠ [] →
        getMicRMS sqrt (some data)
          = sqrt ((data.map (fun d : Fin 256 => (((d.val : ℚ) - 128) / 128) ^ 2)).sum
              / data.length)
        ∧ 0 ≤ getMicRMS sqrt (some data) ∧ getMicRMS sqrt (some data) ≤ 1)
    ∧ (∀ d : Fin 256, (((d.val : ℚ) - 128) / 128) ^ 2 ≤ 1)
    ∧ ((((0 : Fin 256).val : ℚ) - 128) / 128) ^ 2 = 1
    ∧ (∀ data : List (Fin 256), data ≠ [] → (∀ d ∈ data, d = 128) →
        getMicRMS sqrt (some data) = 0)
    ∧ getMicRMS sqrt none = 0
    ∧ isBlowing (getMicRMS sqrt none) = false := by
  refine ⟨?_, fun d => (sample_sq_bounds d).2, by norm_num, ?_, rfl, ?_⟩
  · intro data hne
    have hb := meanSquare_bounds data hne
    refine ⟨by simp only [getMicRMS, sumSquares_eq], ?_, ?_⟩
    · have := hmono hb.1
      rw [h0] at this
      exact this
    · have := hmono hb.2
      rw [h1] at this
      exact this
  · intro data _ hall
    have hz : sumSquares data = 0 := by
      rw [sumSquares_eq]
      apply List.sum_eq_zero
      intro x hx
      obtain ⟨d, hd, rfl⟩ := List.mem_map.mp hx
      rw [hall d hd]
      have hv : (128 : Fin 256).val = 128 := by decide
      rw [hv]
      norm_num
    simp only [getMicRMS, hz, zero_div, h0]
  · simp [getMicRMS, isBlowing, BLOW_THRESHOLD]

/-- Instance with the truncating square root: a buffer of two silent samples
reads 0. -/
theorem getMicRMS_range_witness :
    Monotone sqrtFloor ∧ sqrtFloor 0 = 0 ∧ sqrtFloor 1 = 1
    ∧ getMicRMS sqrtFloor (some [128, 128]) = 0 :=
  ⟨sqrtFloor_mono, sqrtFloor_zero, sqrtFloor_one,
    (getMicRMS_range sqrtFloor sqrtFloor_mono sqrtFloor_zero sqrtFloor_one).2.2.2.1
      [128, 128] (by simp) (by simp)⟩

/-- C8: for an accepted blow in a reachable state, the list keeps its length and
at every position holds the old candle, extinguished (both marks set) exactly
when it was a candidate and its draw, numbered by the candidates before it in
list order, is below `blowProbability = 0.45`; the active count drops by the
number of draws below the probability among the first `k`, `k` being the number
of candidates; with all of them below it the count is 0 at once, with none of
them below it the candles and timers are unchanged. -/
theorem breath_outcome (ops : List Op) (now : Int) (rms : ℚ) (draws : Nat → ℚ)
    (hu : (run init ops).blowingUnlocked = true)
    (hc : now - (run init ops).lastBlowTime ≥ BLOW_COOLDOWN)
    (hr : rms > BLOW_THRESHOLD) :
    (performBlowEvent now rms draws (run init ops)).candles.length
        = (run init ops).candles.length
    ∧ (∀ j, (performBlowEvent now rms draws (run init ops)).candles.get? j
        = ((run init ops).candles.get? j).map (fun c =>
            if (c.out = false ∧ c.removing = false)
                ∧ draws ((((run init ops).candles.take j).filter
                    (fun c => !c.out && !c.removing)).length) < blowProbability
            then extinguished c else c))
    ∧ updateCandleCount (performBlowEvent now rms draws (run init ops))
          + chosenCount draws (candidates (run init ops)).length
        = updateCandleCount (run init ops)
    ∧ ((∀ i, i < (candidates (run init ops)).length → draws i < blowProbability) →
        updateCandleCount (performBlowEvent now rms draws (run init ops)) = 0)
    ∧ ((∀ i, i < (candidates (run init ops)).length → ¬ draws i < blowProbability) →
        (performBlowEvent now rms draws (run init ops)).candles = (run init ops).candles
        ∧ (performBlowEvent now rms draws (run init ops)).timers = (run init ops).timers)
    ∧ blowProbability = 45 / 100 := by
  have hwf := WF_run ops
  generalize run init ops = s at hwf hu hc
  obtain ⟨h1, -, h3, -, -⟩ := hwf
  obtain ⟨hcs, hts⟩ := performBlowEvent_spec now rms draws s h1 hu hc hr
  refine ⟨?_, ?_, ?_, ?_, ?_, rfl⟩
  · rw [hcs, blowOutcome_length]
  · intro j
    rw [hcs, blowOutcome_get?]
    simp only [Nat.zero_add]
  · have hcount := blowOutcome_count draws s.candles 0
    have hlen := blowTimers_length draws s.candles 0
    simp only [Nat.zero_add] at hlen
    rw [count_eq, hcs, count_eq]
    unfold chosenCount candidates
    rw [← hlen]
    exact hcount
  · intro hall
    rw [count_eq, hcs]
    apply blowOutcome_all draws s.candles 0 h3
    intro j hj
    rw [Nat.zero_add]
    exact hall j hj
  · intro hnone
    have := blowOutcome_none draws s.candles 0 (by
      intro j hj
      rw [Nat.zero_add]
      exact hnone j hj)
    rw [hcs, hts, this.1, this.2, List.append_nil]
    exact ⟨rfl, rfl⟩

/-- Instance: 54 clicks, then a blow at clock value 600 with loudness 1 and
every draw 0 leaves no candle alight. -/
theorem breath_outcome_witness :
    (run init (List.replicate 54 (Op.addCandle 0 0))).blowingUnlocked = true
    ∧ (600 : Int) - (run init (List.replicate 54 (Op.addCandle 0 0))).lastBlowTime
        ≥ BLOW_COOLDOWN
    ∧ (1 : ℚ) > BLOW_THRESHOLD
    ∧ updateCandleCount (performBlowEvent 600 1 (fun _ => 0)
        (run init (List.replicate 54 (Op.addCandle 0 0)))) = 0 :=
  ⟨by decide, by decide, by norm_num [BLOW_THRESHOLD],
    (breath_outcome (List.replicate 54 (Op.addCandle 0 0)) 600 1 (fun _ => 0)
      (by decide) (by decide) (by norm_num [BLOW_THRESHOLD])).2.2.2.1
      (fun _ _ => by norm_num [blowProbability])⟩

/-- C9: the removal callback of `c` leaves exactly the candles other than `c`,
each with its marks and in the old order (the list is unchanged when `c` is
not in it); it schedules the redirect to the celebration page, 800 ms later,
exactly when the active count of the new list is 0; it touches nothing else;
and run again at count zero it returns a state, with the same list and the
redirect scheduled once more. -/
theorem removeCallback_outcome (s : State) (c : Nat) :
    (removeCallback c s).candles = s.candles.filter (fun x => decide (x.id ≠ c))
    ∧ (∀ x ∈ (removeCallback c s).candles, x.id ≠ c)
    ∧ (removeCallback c s).candles.Sublist s.candles
    ∧ (∀ x ∈ s.candles, x.id ≠ c → x ∈ (removeCallback c s).candles)
    ∧ ((∀ x ∈ s.candles, x.id ≠ c) → (removeCallback c s).candles = s.candles)
    ∧ (updateCandleCount (removeCallback c s) = 0 →
        (removeCallback c s).timers = s.timers ++ [⟨800, .navigate⟩])
    ∧ (updateCandleCount (removeCallback c s) ≠ 0 →
        (removeCallback c s).timers = s.timers)
    ∧ (navigateCallback (removeCallback c s)).href = some "celebration.html"
    ∧ ((removeCallback c s).blowingUnlocked = s.blowingUnlocked
        ∧ (removeCallback c s).lastBlowTime = s.lastBlowTime
        ∧ (removeCallback c s).notices = s.notices
        ∧ (removeCallback c s).href = s.href)
    ∧ (updateCandleCount (removeCallback c s) = 0 →
        (removeCallback c (removeCallback c s)).candles = (removeCallback c s).candles
        ∧ (removeCallback c (removeCallback c s)).timers
            = (removeCallback c s).timers ++ [⟨800, .navigate⟩])
    ∧ (∀ i d, s.timers.get? i = some ⟨d, .remove c⟩ →
        fire i s = removeCallback c { s with timers := s.timers.eraseIdx i }) := by
  have hf := removeCallback_fields c s
  have hcnt : updateCandleCount (removeCallback c s)
      = updateCandleCount { s with candles := s.candles.filter (fun x => decide (x.id ≠ c)) } := by
    rw [count_eq, hf.1, count_eq]
  have hgone : ∀ x ∈ (removeCallback c s).candles, x.id ≠ c := by
    intro x hx
    rw [hf.1] at hx
    simpa using (List.mem_filter.mp hx).2
  have hsame : (∀ x ∈ s.candles, x.id ≠ c) → (removeCallback c s).candles = s.candles := by
    intro h
    rw [hf.1]
    apply List.filter_eq_self.mpr
    intro x hx
    simpa using h x hx
  have hzero : ∀ t : State, updateCandleCount (removeCallback c t) = 0 →
      (removeCallback c t).timers = t.timers ++ [⟨800, .navigate⟩] := by
    intro t h0
    have hcnt' : updateCandleCount
        { t with candles := t.candles.filter (fun x => decide (x.id ≠ c)) } = 0 := by
      rw [← h0, count_eq, count_eq, (removeCallback_fields c t).1]
    simp only [removeCallback, hcnt', if_true, setTimeout]
  refine ⟨hf.1, hgone, ?_, ?_, hsame, hzero s, ?_, rfl, ⟨hf.2.1, hf.2.2.1, hf.2.2.2.1,
    hf.2.2.2.2.1⟩, ?_, ?_⟩
  · rw [hf.1]
    exact List.filter_sublist _
  · intro x hx hne
    rw [hf.1]
    exact List.mem_filter.mpr ⟨hx, by simpa using hne⟩
  · intro hne
    rw [hcnt] at hne
    simp only [removeCallback, hne, if_false]
  · intro h0
    have hc2 : (removeCallback c (removeCallback c s)).candles = (removeCallback c s).candles := by
      rw [(removeCallback_fields c (removeCallback c s)).1]
      apply List.filter_eq_self.mpr
      intro x hx
      simpa using hgone x hx
    refine ⟨hc2, hzero _ ?_⟩
    rw [count_eq, hc2, ← count_eq]
    exact h0
  · intro i d hget
    unfold fire
    rw [hget]
    rfl

/-- C10: the cap bounds the active count only.  `addCandle` yields the same
candles whatever the flag is, and the run of 54 clicks, one tick accepted at
clock value 600 with loudness 1 and every draw 0, and one more click, with no
timer fired, ends with 55 candles in the list: 54 marked `out`, 1 alight, and
54 timers pending. -/
theorem list_exceeds_cap :
    (run init (List.replicate 54 (Op.addCandle 0 0)
        ++ [Op.tick 600 1 (fun _ => 0), Op.addCandle 0 0])).candles.length = 55
    ∧ ((run init (List.replicate 54 (Op.addCandle 0 0)
        ++ [Op.tick 600 1 (fun _ => 0), Op.addCandle 0 0])).candles.filter
          (fun c => c.out)).length = 54
    ∧ updateCandleCount (run init (List.replicate 54 (Op.addCandle 0 0)
        ++ [Op.tick 600 1 (fun _ => 0), Op.addCandle 0 0])) = 1
    ∧ (run init (List.replicate 54 (Op.addCandle 0 0)
        ++ [Op.tick 600 1 (fun _ => 0), Op.addCandle 0 0])).timers.length = 54
    ∧ MAX_CANDLES < (run init (List.replicate 54 (Op.addCandle 0 0)
        ++ [Op.tick 600 1 (fun _ => 0), Op.addCandle 0 0])).candles.length
    ∧ (∀ (s : State) (l t : ℚ) (b : Bool),
        (addCandle l t { s with blowingUnlocked := b }).candles = (addCandle l t s).candles) := by
  have hu : (run init (List.replicate 54 (Op.addCandle 0 0))).blowingUnlocked = true := by
    decide
  have hl : (run init (List.replicate 54 (Op.addCandle 0 0))).lastBlowTime = 0 := by
    decide
  have hlen : (run init (List.replicate 54 (Op.addCandle 0 0))).candles.length = 54 := by
    decide
  have hcnt : updateCandleCount (run init (List.replicate 54 (Op.addCandle 0 0))) = 54 := by
    decide
  have ht : (run init (List.replicate 54 (Op.addCandle 0 0))).timers = [] := by
    decide
  have hwf := WF_run (List.replicate 54 (Op.addCandle 0 0))
  have hrun : run init (List.replicate 54 (Op.addCandle 0 0)
        ++ [Op.tick 600 1 (fun _ => 0), Op.addCandle 0 0])
      = addCandle 0 0 (performBlowEvent 600 1 (fun _ => 0)
          (run init (List.replicate 54 (Op.addCandle 0 0)))) := by
    rw [run_append, run_cons, run_cons, run_nil]
    simp only [step, intervalCallback]
    rw [unlockCheck_of_unlocked _ hu]
  rw [hrun]
  generalize run init (List.replicate 54 (Op.addCandle 0 0)) = s at hu hl hlen hcnt ht hwf
  have hc : BLOW_COOLDOWN ≤ (600 : Int) - s.lastBlowTime := by
    rw [hl]; decide
  have hr : BLOW_THRESHOLD < (1 : ℚ) := by norm_num [BLOW_THRESHOLD]
  obtain ⟨hcs, hts⟩ := performBlowEvent_spec 600 1 (fun _ => 0) s hwf.1 hu hc hr
  have hzero : updateCandleCount (performBlowEvent 600 1 (fun _ => 0) s) = 0 := by
    rw [count_eq, hcs]
    apply blowOutcome_all (fun _ => 0) s.candles 0 hwf.2.2.1
    intro j _
    norm_num [blowProbability]
  have hlenr : (performBlowEvent 600 1 (fun _ => 0) s).candles.length = 54 := by
    rw [hcs, blowOutcome_length, hlen]
  have htr : (performBlowEvent 600 1 (fun _ => 0) s).timers.length = 54 := by
    have h1 := blowOutcome_count (fun _ => 0) s.candles 0
    rw [count_eq, hcs] at hzero
    rw [hzero, ← count_eq, hcnt] at h1
    rw [hts, ht, List.nil_append]
    omega
  have hlt : updateCandleCount (performBlowEvent 600 1 (fun _ => 0) s) < MAX_CANDLES := by
    rw [hzero]; decide
  obtain ⟨hadd, -, haddt, -, -, -⟩ :=
    addCandle_of_lt 0 0 (performBlowEvent 600 1 (fun _ => 0) s) hlt
  have hone : updateCandleCount (addCandle 0 0 (performBlowEvent 600 1 (fun _ => 0) s)) = 1 := by
    rw [addCandle_count_of_lt 0 0 _ hlt, hzero]
  have h55 : (addCandle 0 0 (performBlowEvent 600 1 (fun _ => 0) s)).candles.length = 55 := by
    rw [hadd, List.length_append, hlenr]
    rfl
  refine ⟨h55, ?_, hone, by rw [haddt, htr], by rw [h55]; decide, ?_⟩
  · have := length_eq_out_add_alight
      (addCandle 0 0 (performBlowEvent 600 1 (fun _ => 0) s)).candles
    rw [h55, ← count_eq, hone] at this
    omega
  · intro s l t b
    by_cases h : updateCandleCount s < MAX_CANDLES
    · have h2 : updateCandleCount { s with blowingUnlocked := b } < MAX_CANDLES := h
      rw [(addCandle_of_lt l t s h).1, (addCandle_of_lt l t _ h2).1]
    · have h2 : updateCandleCount { s with blowingUnlocked := b } ≥ MAX_CANDLES :=
        Nat.not_lt.mp h
      rw [addCandle_of_ge l t s (Nat.not_lt.mp h), addCandle_of_ge l t _ h2]

end Germano
